import Mathlib

/-!
# Verification of the transitive-containment graph engine (`day7.py`, class `BagRuleset`)

Shallow embedding of `src/day7/day7.py`.  Python `dict`s are modelled as
association lists with insertion-order semantics (assignment to an existing
key updates the value in place, assignment to a fresh key appends at the end;
iteration follows list order), which is exactly CPython's documented `dict`
behaviour.  The worklist loop of `_compile_transitive_path_cache` need not
terminate on cyclic inputs, so it is embedded with an explicit fuel counter
returning `Option`: `none` means the fuel ran out with a non-empty worklist.
Multiplicities are Python `int`s, embedded as `Int`.
-/

namespace Day7

/-- Node identifiers (`Colour = NewType("Colour", str)` in the source). -/
abbrev Colour := String

/-- Python `d[k] = v` on an insertion-ordered dict: updating an existing key
keeps its position, a fresh key is appended at the end. -/
def dictInsert {K V : Type} [DecidableEq K] : List (K × V) → K → V → List (K × V)
  | [], k, v => [(k, v)]
  | (k', v') :: rest, k, v =>
      if k' = k then (k, v) :: rest else (k', v') :: dictInsert rest k v

/-- Python `d.get(k)` / `k in d` support: first (only) binding of `k`. -/
def dictLookup {K V : Type} [DecidableEq K] : List (K × V) → K → Option V
  | [], _ => none
  | (k', v) :: rest, k => if k' = k then some v else dictLookup rest k

/-- Python `d.get(k, default)`. -/
def dictLookupD {K V : Type} [DecidableEq K] (l : List (K × V)) (k : K) (d : V) : V :=
  (dictLookup l k).getD d

/-- Python `k in d`. -/
def dictContains {K V : Type} [DecidableEq K] (l : List (K × V)) (k : K) : Bool :=
  (dictLookup l k).isSome

/-- Python `DefaultDict(int)` update `d[k] += x`: an absent key is first
materialised with value `0` at the end of the dict, then incremented. -/
def bumpAdd {K : Type} [DecidableEq K] : List (K × Int) → K → Int → List (K × Int)
  | [], k, x => [(k, x)]
  | (k', v) :: rest, k, x =>
      if k' = k then (k', v + x) :: rest else (k', v) :: bumpAdd rest k x

/-- Fold `bumpAdd` over a list of `(key, increment)` pairs, in order. -/
def bumpMany {K : Type} [DecidableEq K]
    (acc : List (K × Int)) (l : List (K × Int)) : List (K × Int) :=
  l.foldl (fun a kv => bumpAdd a kv.1 kv.2) acc

/-- Keep the first occurrence of each element, preserving first-seen order
(the dedup behaviour of a Python `dict`-comprehension key list or of a loop
guarded by an `already_mentioned` set). -/
def firstSeenAux {α : Type} [DecidableEq α] : List α → List α → List α
  | [], _ => []
  | x :: rest, seen =>
      if x ∈ seen then firstSeenAux rest seen
      else x :: firstSeenAux rest (x :: seen)

/-- First-occurrence dedup of a list. -/
def firstSeen {α : Type} [DecidableEq α] (l : List α) : List α :=
  firstSeenAux l []

/-- State of a `BagRuleset` object: the rules dict
`_rules : Dict[Tuple[Colour, Colour], int]` and the nullable cache
`_transitive_paths : Optional[Mapping[Tuple[Colour, Colour], int]]`. -/
structure BagRuleset where
  rules : List ((Colour × Colour) × Int)
  transitive_paths : Option (List ((Colour × Colour) × Int))
deriving Repr, DecidableEq

/-- `BagRuleset.__init__`: no rules, no cache. -/
def BagRuleset.empty : BagRuleset :=
  { rules := [], transitive_paths := none }

/-- The loop body of `add_rule`: for each `(contained_colour, count)` in
order, skip it when `count <= 0`, otherwise `self._rules[container, contained] = count`. -/
def addContents (rules : List ((Colour × Colour) × Int)) (container : Colour)
    (contains : List (Colour × Int)) : List ((Colour × Colour) × Int) :=
  contains.foldl
    (fun rs cc => if cc.2 ≤ 0 then rs else dictInsert rs (container, cc.1) cc.2)
    rules

/-- `BagRuleset.add_rule`: store all positive-count entries, then
`_invalidate_caches` (set the cache to `None`). -/
def BagRuleset.add_rule (s : BagRuleset) (container : Colour)
    (contains : List (Colour × Int)) : BagRuleset :=
  { rules := addContents s.rules container contains, transitive_paths := none }

/-- The generator body of `all_colours`, with the `already_mentioned` set made
explicit: for each rule key `(container, contained)` in insertion order, yield
`container` if unseen, then yield `contained` if unseen. -/
def allColoursAux : List ((Colour × Colour) × Int) → List Colour → List Colour
  | [], _ => []
  | ((a, b), _) :: rest, seen =>
      if a ∈ seen then
        if b ∈ seen then allColoursAux rest seen
        else b :: allColoursAux rest (b :: seen)
      else
        if b ∈ (a :: seen) then a :: allColoursAux rest (a :: seen)
        else a :: b :: allColoursAux rest (b :: a :: seen)

/-- `BagRuleset.all_colours` as a pure function of the rules dict. -/
def allColours (rules : List ((Colour × Colour) × Int)) : List Colour :=
  allColoursAux rules []

/-- The `all_colours` method: a generator over `self._rules`, touching no
state (in particular it never rebuilds the cache). -/
def BagRuleset.all_colours (s : BagRuleset) : List Colour × BagRuleset :=
  (allColours s.rules, s)

/-- The adjacency view `routes_from` built at the top of
`_compile_transitive_path_cache`: `routes_from[x]` lists `(y, z)` for every
rule `(x, y) -> z`, in rules order; `routes_from.get(via, [])` is `[]` for a
`via` that is no container. -/
def routesFrom (rules : List ((Colour × Colour) × Int)) (via : Colour) :
    List (Colour × Int) :=
  (rules.filter (fun r => r.1.1 = via)).map (fun r => (r.1.2, r.2))

/-- The key list of the `routes_from` dict: every colour that occurs as the
container (first component) of some rule, in first-seen rules order. -/
def containersOf (rules : List ((Colour × Colour) × Int)) : List Colour :=
  firstSeen (rules.map (fun r => r.1.1))

/-- The initial worklist `[(x, x, 1) for x in routes_from.keys()]`.  The Lean
list keeps the *top* of the Python stack at its head: Python `pop()` removes
the last element, so the Python list is represented reversed. -/
def initialWorklist (rules : List ((Colour × Colour) × Int)) :
    List (Colour × Colour × Int) :=
  ((containersOf rules).map (fun x => (x, x, (1 : Int)))).reverse

/-- The accumulator updates performed when the entry `(origin, via, count)` is
popped: for each `(successor, successor_count)` in `routes_from[via]`, add
`count * successor_count` at key `(origin, successor)`. -/
def pairDeltas (adj : Colour → List (Colour × Int)) (origin via : Colour)
    (count : Int) : List ((Colour × Colour) × Int) :=
  (adj via).map (fun sw => ((origin, sw.1), count * sw.2))

/-- The worklist entries appended when `(origin, via, count)` is popped, in
append order. -/
def newEntries (adj : Colour → List (Colour × Int)) (origin via : Colour)
    (count : Int) : List (Colour × Colour × Int) :=
  (adj via).map (fun sw => (origin, sw.1, count * sw.2))

/-- The `while worklist:` loop of `_compile_transitive_path_cache`, fuelled.
Each fuel unit pays for one `pop()`.  The head of the Lean worklist is the end
of the Python list, so `pop()` takes the head and the `append`s of one
iteration put the reversed new entries in front of the rest. -/
def runLoop (adj : Colour → List (Colour × Int)) :
    Nat → List (Colour × Colour × Int) → List ((Colour × Colour) × Int) →
    Option (List ((Colour × Colour) × Int))
  | _, [], acc => some acc
  | 0, _ :: _, _ => none
  | fuel + 1, (origin, via, count) :: rest, acc =>
      runLoop adj fuel
        ((newEntries adj origin via count).reverse ++ rest)
        (bumpMany acc (pairDeltas adj origin via count))

/-- `BagRuleset._compile_transitive_path_cache`, fuelled. -/
def compileCache (fuel : Nat) (rules : List ((Colour × Colour) × Int)) :
    Option (List ((Colour × Colour) × Int)) :=
  runLoop (routesFrom rules) fuel (initialWorklist rules) []

/-- `BagRuleset._get_transitive_path_cache`: return the cache, compiling and
memoising it first when it is `None`. -/
def BagRuleset.get_transitive_path_cache (fuel : Nat) (s : BagRuleset) :
    Option (List ((Colour × Colour) × Int) × BagRuleset) :=
  match s.transitive_paths with
  | some m => some (m, s)
  | none =>
      (compileCache fuel s.rules).map
        (fun m => (m, { s with transitive_paths := some m }))

/-- `BagRuleset.can_transitively_contain`: membership test in the cache. -/
def BagRuleset.can_transitively_contain (fuel : Nat) (s : BagRuleset)
    (container contained : Colour) : Option (Bool × BagRuleset) :=
  (s.get_transitive_path_cache fuel).map
    (fun ms => (dictContains ms.1 (container, contained), ms.2))

/-- `BagRuleset.total_contained_transitively`:
`sum(transitive_paths.get((container, x), 0) for x in self.all_colours())`. -/
def BagRuleset.total_contained_transitively (fuel : Nat) (s : BagRuleset)
    (container : Colour) : Option (Int × BagRuleset) :=
  (s.get_transitive_path_cache fuel).map
    (fun ms =>
      (((allColours ms.2.rules).map
          (fun x => dictLookupD ms.1 (container, x) 0)).sum, ms.2))

/-! ## Specification-side mathematics: directed paths and path sums -/

/-- All directed paths of length `≥ 1` and `≤ fuel` out of `o`, each given as
its list of `(nextNode, edgeWeight)` steps in travel order. -/
def pathsFrom (adj : Colour → List (Colour × Int)) :
    Nat → Colour → List (List (Colour × Int))
  | 0, _ => []
  | fuel + 1, o =>
      (adj o).flatMap
        (fun e => [e] :: (pathsFrom adj fuel e.1).map (fun p => e :: p))

/-- The final node of a path (its destination). -/
def pathDest (p : List (Colour × Int)) : Option Colour :=
  (p.getLast?).map Prod.fst

/-- The multiplicity of a path: the product of its edge weights. -/
def pathWeight (p : List (Colour × Int)) : Int :=
  (p.map Prod.snd).prod

/-- Sum, over every directed path from `o` to `d` of length between `1` and
`fuel`, of the product of the edge multiplicities along the path. -/
def pathSumN (adj : Colour → List (Colour × Int)) (fuel : Nat)
    (o d : Colour) : Int :=
  (((pathsFrom adj fuel o).filter (fun p => pathDest p = some d)).map
      pathWeight).sum

/-- `Reaches adj o d`: there is a directed path of length `≥ 1` from `o`
to `d`. -/
inductive Reaches (adj : Colour → List (Colour × Int)) : Colour → Colour → Prop
  | edge {o d : Colour} {w : Int} (h : (d, w) ∈ adj o) : Reaches adj o d
  | cons {o s d : Colour} {w : Int} (h : (s, w) ∈ adj o)
      (h' : Reaches adj s d) : Reaches adj o d

/-- A rank function witnessing acyclicity: every stored edge strictly
decreases the rank. -/
def RankedAcyclic (rules : List ((Colour × Colour) × Int))
    (rank : Colour → Nat) : Prop :=
  ∀ r ∈ rules, rank r.1.2 < rank r.1.1

/-- All stored edge multiplicities are strictly positive. -/
def PositiveRules (rules : List ((Colour × Colour) × Int)) : Prop :=
  ∀ r ∈ rules, 0 < r.2

/-! ## Association-list dictionary lemmas -/

theorem dictLookup_dictInsert_self {K V : Type} [DecidableEq K]
    (l : List (K × V)) (k : K) (v : V) :
    dictLookup (dictInsert l k v) k = some v := by
  induction l with
  | nil => simp [dictInsert, dictLookup]
  | cons kv rest ih =>
      obtain ⟨k', v'⟩ := kv
      by_cases h : k' = k
      · simp [dictInsert, dictLookup, h]
      · simp [dictInsert, dictLookup, h, ih]

theorem dictInsert_dictInsert_same {K V : Type} [DecidableEq K]
    (l : List (K × V)) (k : K) (v w : V) :
    dictInsert (dictInsert l k v) k w = dictInsert l k w := by
  induction l with
  | nil => simp [dictInsert]
  | cons kv rest ih =>
      obtain ⟨k', v'⟩ := kv
      by_cases h : k' = k
      · simp [dictInsert, h]
      · simp [dictInsert, h, ih]

theorem dictLookup_mem {K V : Type} [DecidableEq K]
    {l : List (K × V)} {k : K} {v : V} (h : dictLookup l k = some v) :
    (k, v) ∈ l := by
  induction l with
  | nil => simp [dictLookup] at h
  | cons kv rest ih =>
      obtain ⟨k', v'⟩ := kv
      by_cases h' : k' = k
      · simp only [dictLookup, if_pos h'] at h
        subst h'
        simp [Option.some_inj.1 h]
      · simp only [dictLookup, if_neg h'] at h
        exact List.mem_cons_of_mem _ (ih h)

theorem dictLookup_eq_none_of_keys {K V : Type} [DecidableEq K]
    {l : List (K × V)} {k : K} (h : ∀ kv ∈ l, kv.1 ≠ k) :
    dictLookup l k = none := by
  induction l with
  | nil => rfl
  | cons kv rest ih =>
      obtain ⟨k', v'⟩ := kv
      simp only [dictLookup,
        if_neg (h (k', v') (List.mem_cons_self _ rest))]
      exact ih (fun kv' h' => h kv' (List.mem_cons_of_mem _ h'))

theorem dictLookupD_bumpAdd {K : Type} [DecidableEq K]
    (l : List (K × Int)) (k k' : K) (x : Int) :
    dictLookupD (bumpAdd l k x) k' 0 =
      dictLookupD l k' 0 + if k = k' then x else 0 := by
  induction l with
  | nil =>
      by_cases h : k = k' <;>
        simp [bumpAdd, dictLookup, dictLookupD, h]
  | cons kv rest ih =>
      obtain ⟨k0, v0⟩ := kv
      by_cases h : k0 = k
      · by_cases h2 : k0 = k'
        · have hk : k = k' := h ▸ h2
          simp [bumpAdd, dictLookup, dictLookupD, h, h2, hk]
        · have hk : ¬ k = k' := fun he => h2 (h.trans he)
          simp only [bumpAdd, if_pos h]
          simp [dictLookup, dictLookupD, h2, hk]
      · by_cases h2 : k0 = k'
        · have hk : ¬ k = k' := fun he => h (h2.trans he.symm)
          have hk' : ¬ k' = k := fun he => h (h2.trans he)
          simp [bumpAdd, dictLookup, dictLookupD, h, h2, hk, hk']
        · simpa [bumpAdd, dictLookup, dictLookupD, h, h2] using ih

theorem bumpMany_nil {K : Type} [DecidableEq K] (acc : List (K × Int)) :
    bumpMany acc [] = acc := rfl

theorem bumpMany_cons {K : Type} [DecidableEq K] (acc : List (K × Int))
    (kv : K × Int) (l : List (K × Int)) :
    bumpMany acc (kv :: l) = bumpMany (bumpAdd acc kv.1 kv.2) l := rfl

theorem dictLookupD_bumpMany {K : Type} [DecidableEq K]
    (l : List (K × Int)) (acc : List (K × Int)) (k : K) :
    dictLookupD (bumpMany acc l) k 0 =
      dictLookupD acc k 0 + (l.map (fun kv => if kv.1 = k then kv.2 else 0)).sum := by
  induction l generalizing acc with
  | nil => simp [bumpMany_nil]
  | cons kv rest ih =>
      rw [bumpMany_cons, ih, dictLookupD_bumpAdd]
      simp only [List.map_cons, List.sum_cons]
      ring

/-- All values of an integer-valued dict are strictly positive. -/
def ValsPos {K : Type} (l : List (K × Int)) : Prop := ∀ kv ∈ l, 0 < kv.2

theorem valsPos_bumpAdd {K : Type} [DecidableEq K]
    {l : List (K × Int)} {k : K} {x : Int} (hl : ValsPos l) (hx : 0 < x) :
    ValsPos (bumpAdd l k x) := by
  induction l with
  | nil =>
      intro kv hkv
      simp [bumpAdd] at hkv
      simp [hkv, hx]
  | cons kv0 rest ih =>
      obtain ⟨k0, v0⟩ := kv0
      have h0 : 0 < v0 := hl (k0, v0) (List.mem_cons_self _ _)
      have hrest : ValsPos rest := fun kv h => hl kv (List.mem_cons_of_mem _ h)
      intro kv hkv
      by_cases h : k0 = k
      · simp only [bumpAdd, if_pos h, List.mem_cons] at hkv
        rcases hkv with h1 | h1
        · simp only [h1]
          positivity
        · exact hrest kv h1
      · simp only [bumpAdd, if_neg h, List.mem_cons] at hkv
        rcases hkv with h1 | h1
        · rw [h1]; exact h0
        · exact ih hrest kv h1

theorem valsPos_bumpMany {K : Type} [DecidableEq K]
    {l : List (K × Int)} {acc : List (K × Int)}
    (hacc : ValsPos acc) (hl : ValsPos l) :
    ValsPos (bumpMany acc l) := by
  induction l generalizing acc with
  | nil => simpa [bumpMany_nil] using hacc
  | cons kv rest ih =>
      rw [bumpMany_cons]
      exact ih (valsPos_bumpAdd hacc (hl kv (List.mem_cons_self _ _)))
        (fun kv' h => hl kv' (List.mem_cons_of_mem _ h))

theorem keys_bumpAdd {K : Type} [DecidableEq K] {P : K → Prop}
    {l : List (K × Int)} {k : K} {x : Int}
    (hl : ∀ kv ∈ l, P kv.1) (hk : P k) :
    ∀ kv ∈ bumpAdd l k x, P kv.1 := by
  induction l with
  | nil =>
      intro kv hkv
      simp [bumpAdd] at hkv
      simp [hkv, hk]
  | cons kv0 rest ih =>
      obtain ⟨k0, v0⟩ := kv0
      intro kv hkv
      by_cases h : k0 = k
      · simp only [bumpAdd, if_pos h, List.mem_cons] at hkv
        rcases hkv with h1 | h1
        · rw [h1]
          exact hl (k0, v0) (List.mem_cons_self _ _)
        · exact hl kv (List.mem_cons_of_mem _ h1)
      · simp only [bumpAdd, if_neg h, List.mem_cons] at hkv
        rcases hkv with h1 | h1
        · rw [h1]; exact hl (k0, v0) (List.mem_cons_self _ _)
        · exact ih (fun kv' h' => hl kv' (List.mem_cons_of_mem _ h')) kv h1

theorem keys_bumpMany {K : Type} [DecidableEq K] {P : K → Prop}
    {l : List (K × Int)} {acc : List (K × Int)}
    (hacc : ∀ kv ∈ acc, P kv.1) (hl : ∀ kv ∈ l, P kv.1) :
    ∀ kv ∈ bumpMany acc l, P kv.1 := by
  induction l generalizing acc with
  | nil => simpa [bumpMany_nil] using hacc
  | cons kv rest ih =>
      rw [bumpMany_cons]
      exact ih (keys_bumpAdd hacc (hl kv (List.mem_cons_self _ _)))
        (fun kv' h => hl kv' (List.mem_cons_of_mem _ h))

theorem dictContains_iff_pos {K : Type} [DecidableEq K]
    {l : List (K × Int)} (hl : ValsPos l) (k : K) :
    dictContains l k = true ↔ 0 < dictLookupD l k 0 := by
  cases h : dictLookup l k with
  | none => simp [dictContains, dictLookupD, h]
  | some v =>
      have : 0 < v := hl (k, v) (dictLookup_mem h)
      simp [dictContains, dictLookupD, h, this]

/-! ## Integer list-sum helpers -/

theorem sum_map_eq_zero {α : Type} {l : List α} {f : α → Int}
    (h : ∀ x ∈ l, f x = 0) : (l.map f).sum = 0 := by
  induction l with
  | nil => simp
  | cons a l ih => simp_all

theorem sum_map_add_split {α : Type} (l : List α) (f g : α → Int) :
    (l.map (fun x => f x + g x)).sum = (l.map f).sum + (l.map g).sum := by
  induction l with
  | nil => simp
  | cons a l ih => simp [ih]; ring

theorem sum_map_ite_singleton {α : Type} [DecidableEq α]
    {l : List α} (hnd : l.Nodup) (o : α) (f : α → Int) :
    (l.map (fun x => if x = o then f x else 0)).sum =
      if o ∈ l then f o else 0 := by
  induction l with
  | nil => simp
  | cons a l ih =>
      rw [List.nodup_cons] at hnd
      by_cases h : a = o
      · subst h
        have hzero : (l.map (fun x => if x = a then f x else 0)).sum = 0 :=
          sum_map_eq_zero (fun x hx => by
            have : x ≠ a := fun he => hnd.1 (he ▸ hx)
            simp [this])
        simp [hzero]
      · simp only [List.map_cons, List.sum_cons, if_neg h, ih hnd.2,
          List.mem_cons]
        have : (o = a) ↔ False := ⟨fun he => h he.symm, False.elim⟩
        simp [this]

/-! ## First-seen dedup lemmas -/

theorem mem_firstSeenAux {α : Type} [DecidableEq α]
    (l : List α) (seen : List α) (x : α) :
    x ∈ firstSeenAux l seen ↔ x ∈ l ∧ x ∉ seen := by
  induction l generalizing seen with
  | nil => simp [firstSeenAux]
  | cons a l ih =>
      by_cases h : a ∈ seen
      · simp only [firstSeenAux, if_pos h, ih, List.mem_cons]
        constructor
        · exact fun ⟨h1, h2⟩ => ⟨Or.inr h1, h2⟩
        · rintro ⟨h1 | h1, h2⟩
          · exact absurd (h1 ▸ h) h2
          · exact ⟨h1, h2⟩
      · simp only [firstSeenAux, if_neg h, List.mem_cons, ih]
        by_cases hx : x = a
        · subst hx; simp [h]
        · simp [hx]

theorem nodup_firstSeenAux {α : Type} [DecidableEq α]
    (l : List α) (seen : List α) :
    (firstSeenAux l seen).Nodup := by
  induction l generalizing seen with
  | nil => simp [firstSeenAux]
  | cons a l ih =>
      by_cases h : a ∈ seen
      · simpa [firstSeenAux, h] using ih seen
      · simp only [firstSeenAux, if_neg h, List.nodup_cons]
        refine ⟨?_, ih _⟩
        intro hmem
        rw [mem_firstSeenAux] at hmem
        exact hmem.2 (List.mem_cons_self a seen)

theorem mem_firstSeen {α : Type} [DecidableEq α] (l : List α) (x : α) :
    x ∈ firstSeen l ↔ x ∈ l := by
  simp [firstSeen, mem_firstSeenAux]

theorem nodup_firstSeen {α : Type} [DecidableEq α] (l : List α) :
    (firstSeen l).Nodup := nodup_firstSeenAux l []

/-! ## Adjacency and container lemmas -/

theorem mem_containersOf {rules : List ((Colour × Colour) × Int)} {x : Colour} :
    x ∈ containersOf rules ↔ ∃ r ∈ rules, r.1.1 = x := by
  simp [containersOf, mem_firstSeen, List.mem_map, eq_comm]

theorem nodup_containersOf (rules : List ((Colour × Colour) × Int)) :
    (containersOf rules).Nodup := nodup_firstSeen _

theorem mem_routesFrom {rules : List ((Colour × Colour) × Int)}
    {v s : Colour} {w : Int} :
    (s, w) ∈ routesFrom rules v ↔ ((v, s), w) ∈ rules := by
  simp only [routesFrom, List.mem_map, List.mem_filter, decide_eq_true_eq]
  constructor
  · rintro ⟨r, ⟨hr, hv⟩, he⟩
    obtain ⟨⟨a, b⟩, c⟩ := r
    simp at hv he
    rw [← hv, ← he.1, ← he.2]
    exact hr
  · intro h
    exact ⟨((v, s), w), ⟨h, rfl⟩, rfl⟩

theorem routesFrom_eq_nil {rules : List ((Colour × Colour) × Int)}
    {v : Colour} (h : v ∉ containersOf rules) :
    routesFrom rules v = [] := by
  rw [mem_containersOf] at h
  push_neg at h
  rcases he : routesFrom rules v with _ | ⟨sw, rest⟩
  · rfl
  · exfalso
    have : sw ∈ routesFrom rules v := he ▸ List.mem_cons_self _ _
    obtain ⟨s, w⟩ := sw
    rw [mem_routesFrom] at this
    exact h ((v, s), w) this rfl

theorem mem_containersOf_of_routes {rules : List ((Colour × Colour) × Int)}
    {v : Colour} {sw : Colour × Int} (h : sw ∈ routesFrom rules v) :
    v ∈ containersOf rules := by
  obtain ⟨s, w⟩ := sw
  rw [mem_routesFrom] at h
  exact mem_containersOf.2 ⟨((v, s), w), h, rfl⟩

/-! ## Path lemmas -/

theorem pathsFrom_ne_nil {adj : Colour → List (Colour × Int)} {fuel : Nat}
    {o : Colour} {p : List (Colour × Int)} (h : p ∈ pathsFrom adj fuel o) :
    p ≠ [] := by
  cases fuel with
  | zero => simp [pathsFrom] at h
  | succ f =>
      simp only [pathsFrom, List.mem_flatMap, List.mem_cons] at h
      obtain ⟨e, _, hp | hp⟩ := h
      · simp [hp]
      · obtain ⟨q, _, hq⟩ := List.mem_map.1 hp
        simp [← hq]

theorem pathsFrom_empty_adj {adj : Colour → List (Colour × Int)} {o : Colour}
    (h : adj o = []) (fuel : Nat) : pathsFrom adj fuel o = [] := by
  cases fuel with
  | zero => rfl
  | succ f => simp [pathsFrom, h]

theorem pathSumN_empty_adj {adj : Colour → List (Colour × Int)} {o : Colour}
    (h : adj o = []) (fuel : Nat) (d : Colour) : pathSumN adj fuel o d = 0 := by
  simp [pathSumN, pathsFrom_empty_adj h]

theorem pathsFrom_mono {adj : Colour → List (Colour × Int)} :
    ∀ {fuel fuel' : Nat}, fuel ≤ fuel' → ∀ {o : Colour} {p : List (Colour × Int)},
      p ∈ pathsFrom adj fuel o → p ∈ pathsFrom adj fuel' o := by
  intro fuel
  induction fuel with
  | zero => intro fuel' _ o p h; simp [pathsFrom] at h
  | succ f ih =>
      intro fuel' hle o p h
      obtain ⟨f', rfl⟩ : ∃ f', fuel' = f' + 1 := ⟨fuel' - 1, by omega⟩
      simp only [pathsFrom, List.mem_flatMap, List.mem_cons] at h ⊢
      obtain ⟨e, he, hp | hp⟩ := h
      · exact ⟨e, he, Or.inl hp⟩
      · obtain ⟨q, hq, hqe⟩ := List.mem_map.1 hp
        exact ⟨e, he, Or.inr (List.mem_map.2
          ⟨q, ih (by omega) hq, hqe⟩)⟩

theorem mem_adj_of_mem_path {adj : Colour → List (Colour × Int)} :
    ∀ {fuel : Nat} {o : Colour} {p : List (Colour × Int)},
      p ∈ pathsFrom adj fuel o → ∀ e ∈ p, ∃ v, e ∈ adj v := by
  intro fuel
  induction fuel with
  | zero => intro o p h; simp [pathsFrom] at h
  | succ f ih =>
      intro o p h e he
      simp only [pathsFrom, List.mem_flatMap, List.mem_cons] at h
      obtain ⟨e', he', hp | hp⟩ := h
      · rw [hp] at he
        simp at he
        exact ⟨o, he ▸ he'⟩
      · obtain ⟨q, hq, hqe⟩ := List.mem_map.1 hp
        rw [← hqe] at he
        rcases List.mem_cons.1 he with h1 | h1
        · exact ⟨o, h1 ▸ he'⟩
        · exact ih hq e h1

/-- The destination of any path out of `o` is the contained endpoint of some
stored adjacency edge. -/
theorem pathDest_is_successor {adj : Colour → List (Colour × Int)}
    {fuel : Nat} {o n : Colour} {p : List (Colour × Int)}
    (hp : p ∈ pathsFrom adj fuel o) (hd : pathDest p = some n) :
    ∃ v w, (n, w) ∈ adj v := by
  unfold pathDest at hd
  cases hlast : p.getLast? with
  | none => rw [hlast] at hd; simp at hd
  | some e =>
      rw [hlast] at hd
      simp only [Option.map_some', Option.some_inj] at hd
      obtain ⟨v, hv⟩ := mem_adj_of_mem_path hp e (List.mem_of_mem_getLast? hlast)
      refine ⟨v, e.2, ?_⟩
      rw [← hd, Prod.mk.eta]
      exact hv

theorem sum_filter_map_flatMap {α β : Type} (l : List α) (g : α → List β)
    (P : β → Bool) (f : β → Int) :
    (((l.flatMap g).filter P).map f).sum =
      (l.map (fun a => (((g a).filter P).map f).sum)).sum := by
  induction l with
  | nil => simp
  | cons a l ih =>
      simp [List.flatMap_cons, List.filter_append, List.sum_append, ih]

/-- Recursive characterisation of the path sum: split every path of length
`≤ fuel + 1` out of `o` at its first edge. -/
theorem pathSumN_succ (adj : Colour → List (Colour × Int)) (fuel : Nat)
    (o d : Colour) :
    pathSumN adj (fuel + 1) o d =
      ((adj o).map
        (fun sw => (if sw.1 = d then sw.2 else 0) +
          sw.2 * pathSumN adj fuel sw.1 d)).sum := by
  unfold pathSumN
  conv_lhs => rw [pathsFrom]
  rw [sum_filter_map_flatMap]
  apply congrArg List.sum
  apply List.map_congr_left
  intro e _
  obtain ⟨s, w⟩ := e
  have hfilter :
      ((pathsFrom adj fuel s).map (fun p => (s, w) :: p)).filter
          (fun p => pathDest p = some d) =
        ((pathsFrom adj fuel s).filter (fun p => pathDest p = some d)).map
          (fun p => (s, w) :: p) := by
    rw [List.filter_map]
    apply congrArg
    apply List.filter_congr
    intro q hq
    have hne : q ≠ [] := pathsFrom_ne_nil hq
    obtain ⟨e0, q0, rfl⟩ := List.exists_cons_of_ne_nil hne
    simp [Function.comp, pathDest, List.getLast?_cons_cons]
  have hmap :
      (pathWeight ∘ fun p => (s, w) :: p) =
        (fun p => w * pathWeight p) := by
    funext p
    simp [Function.comp, pathWeight]
  simp only [List.filter_cons, hfilter]
  by_cases hs : s = d
  · have hP : (decide (pathDest [(s, w)] = some d)) = true := by
      simp [pathDest, hs]
    simp only [hP, if_true, List.map_cons, List.sum_cons, List.map_map,
      hmap, List.sum_map_mul_left]
    simp [pathWeight, hs]
  · have hP : (decide (pathDest [(s, w)] = some d)) = false := by
      simp [pathDest, hs]
    simp only [hP, Bool.false_eq_true, if_false, List.map_map,
      hmap, List.sum_map_mul_left]
    simp [hs]

/-! ## Rank-based stability of path sums -/

/-- A rank function strictly decreasing along every adjacency edge. -/
def AdjRanked (adj : Colour → List (Colour × Int)) (rank : Colour → Nat) : Prop :=
  ∀ v : Colour, ∀ sw ∈ adj v, rank sw.1 < rank v

theorem adjRanked_of_rankedAcyclic {rules : List ((Colour × Colour) × Int)}
    {rank : Colour → Nat} (h : RankedAcyclic rules rank) :
    AdjRanked (routesFrom rules) rank := by
  intro v sw hsw
  obtain ⟨s, w⟩ := sw
  rw [mem_routesFrom] at hsw
  exact h ((v, s), w) hsw

theorem pathSumN_stable {adj : Colour → List (Colour × Int)}
    {rank : Colour → Nat} (hA : AdjRanked adj rank) (d : Colour) :
    ∀ n : Nat, ∀ o : Colour, rank o ≤ n → ∀ f1 f2 : Nat,
      rank o ≤ f1 → rank o ≤ f2 →
      pathSumN adj f1 o d = pathSumN adj f2 o d := by
  intro n
  induction n using Nat.strong_induction_on with
  | _ n ih =>
      intro o hn f1 f2 h1 h2
      by_cases ha : adj o = []
      · rw [pathSumN_empty_adj ha, pathSumN_empty_adj ha]
      · obtain ⟨sw, hsw⟩ := List.exists_mem_of_ne_nil (adj o) ha
        have hpos : 0 < rank o := (Nat.zero_le _).trans_lt (hA o sw hsw)
        obtain ⟨g1, rfl⟩ : ∃ g1, f1 = g1 + 1 := ⟨f1 - 1, by omega⟩
        obtain ⟨g2, rfl⟩ : ∃ g2, f2 = g2 + 1 := ⟨f2 - 1, by omega⟩
        rw [pathSumN_succ, pathSumN_succ]
        apply congrArg List.sum
        apply List.map_congr_left
        intro sw' hsw'
        have hlt : rank sw'.1 < rank o := hA o sw' hsw'
        rw [ih (rank sw'.1) (lt_of_lt_of_le hlt hn) sw'.1 le_rfl g1 g2
          (by omega) (by omega)]

/-! ## Work measure for termination -/

/-- Number of worklist pops caused by one entry whose frontier is `v`,
computed to depth `fuel`: `1` for the pop of the entry itself plus the work
of each immediate successor entry. -/
def workN (adj : Colour → List (Colour × Int)) : Nat → Colour → Nat
  | 0, _ => 1
  | fuel + 1, v => 1 + ((adj v).map (fun sw => workN adj fuel sw.1)).sum

theorem workN_empty_adj {adj : Colour → List (Colour × Int)} {v : Colour}
    (h : adj v = []) (fuel : Nat) : workN adj fuel v = 1 := by
  cases fuel with
  | zero => rfl
  | succ f => simp [workN, h]

theorem workN_pos (adj : Colour → List (Colour × Int)) (fuel : Nat)
    (v : Colour) : 1 ≤ workN adj fuel v := by
  cases fuel with
  | zero => exact le_refl 1
  | succ f => simp [workN]

theorem workN_stable {adj : Colour → List (Colour × Int)}
    {rank : Colour → Nat} (hA : AdjRanked adj rank) :
    ∀ n : Nat, ∀ v : Colour, rank v ≤ n → ∀ f1 f2 : Nat,
      rank v ≤ f1 → rank v ≤ f2 →
      workN adj f1 v = workN adj f2 v := by
  intro n
  induction n using Nat.strong_induction_on with
  | _ n ih =>
      intro v hn f1 f2 h1 h2
      by_cases ha : adj v = []
      · rw [workN_empty_adj ha, workN_empty_adj ha]
      · obtain ⟨sw, hsw⟩ := List.exists_mem_of_ne_nil (adj v) ha
        have hpos : 0 < rank v := (Nat.zero_le _).trans_lt (hA v sw hsw)
        obtain ⟨g1, rfl⟩ : ∃ g1, f1 = g1 + 1 := ⟨f1 - 1, by omega⟩
        obtain ⟨g2, rfl⟩ : ∃ g2, f2 = g2 + 1 := ⟨f2 - 1, by omega⟩
        simp only [workN]
        apply congrArg (1 + ·)
        apply congrArg List.sum
        apply List.map_congr_left
        intro sw' hsw'
        have hlt : rank sw'.1 < rank v := hA v sw' hsw'
        rw [ih (rank sw'.1) (lt_of_lt_of_le hlt hn) sw'.1 le_rfl g1 g2
          (by omega) (by omega)]

/-! ## The worklist invariant -/

/-- The contribution that an unprocessed worklist entry `(origin, via, count)`
will eventually make to the accumulator at key `(o, d)`: its accumulated count
times the path sum from its frontier to `d`. -/
def wlContrib (adj : Colour → List (Colour × Int)) (rank : Colour → Nat)
    (wl : List (Colour × Colour × Int)) (o d : Colour) : Int :=
  (wl.map (fun e =>
    if e.1 = o then e.2.2 * pathSumN adj (rank e.2.1) e.2.1 d else 0)).sum

theorem wlContrib_nil (adj : Colour → List (Colour × Int))
    (rank : Colour → Nat) (o d : Colour) :
    wlContrib adj rank [] o d = 0 := rfl

theorem wlContrib_cons (adj : Colour → List (Colour × Int))
    (rank : Colour → Nat) (e : Colour × Colour × Int)
    (wl : List (Colour × Colour × Int)) (o d : Colour) :
    wlContrib adj rank (e :: wl) o d =
      (if e.1 = o then e.2.2 * pathSumN adj (rank e.2.1) e.2.1 d else 0) +
        wlContrib adj rank wl o d := by
  simp [wlContrib]

theorem wlContrib_append (adj : Colour → List (Colour × Int))
    (rank : Colour → Nat) (w1 w2 : List (Colour × Colour × Int))
    (o d : Colour) :
    wlContrib adj rank (w1 ++ w2) o d =
      wlContrib adj rank w1 o d + wlContrib adj rank w2 o d := by
  simp [wlContrib]

theorem wlContrib_reverse (adj : Colour → List (Colour × Int))
    (rank : Colour → Nat) (wl : List (Colour × Colour × Int)) (o d : Colour) :
    wlContrib adj rank wl.reverse o d = wlContrib adj rank wl o d := by
  simp [wlContrib, List.map_reverse, List.sum_reverse]

/-- Processing one entry conserves the invariant quantity: what the pop sends
to the accumulator plus what it re-queues equals the entry's own pending
contribution. -/
theorem step_balance {adj : Colour → List (Colour × Int)}
    {rank : Colour → Nat} (hA : AdjRanked adj rank)
    (acc : List ((Colour × Colour) × Int)) (p v : Colour) (c : Int)
    (o d : Colour) :
    dictLookupD (bumpMany acc (pairDeltas adj p v c)) (o, d) 0 +
        wlContrib adj rank (newEntries adj p v c) o d =
      dictLookupD acc (o, d) 0 +
        (if p = o then c * pathSumN adj (rank v) v d else 0) := by
  rw [dictLookupD_bumpMany]
  unfold pairDeltas newEntries wlContrib
  rw [List.map_map, List.map_map, add_assoc]
  congr 1
  rw [← sum_map_add_split]
  by_cases hp : p = o
  · subst hp
    by_cases ha : adj v = []
    · simp [ha, pathSumN_empty_adj ha]
    · obtain ⟨sw0, hsw0⟩ := List.exists_mem_of_ne_nil (adj v) ha
      have hrv : 0 < rank v := (Nat.zero_le _).trans_lt (hA v sw0 hsw0)
      obtain ⟨g, hg⟩ : ∃ g, rank v = g + 1 := ⟨rank v - 1, by omega⟩
      rw [if_pos rfl, hg, pathSumN_succ, ← List.sum_map_mul_left]
      apply congrArg List.sum
      apply List.map_congr_left
      intro sw hsw
      have hlt : rank sw.1 < rank v := hA v sw hsw
      have hst : pathSumN adj g sw.1 d = pathSumN adj (rank sw.1) sw.1 d :=
        pathSumN_stable hA d (rank sw.1) sw.1 le_rfl g (rank sw.1)
          (by omega) le_rfl
      simp only [Function.comp_apply, Prod.mk.injEq, true_and, if_true, hst]
      by_cases hd : sw.1 = d
      · simp only [hd, if_true]; ring
      · simp only [hd, if_false]; ring
  · rw [if_neg hp]
    apply sum_map_eq_zero
    intro sw _
    have h1 : ¬ ((p, sw.1) = (o, d)) := by
      simp [Prod.mk.injEq, hp]
    simp [Function.comp_apply, h1, hp]

/-- Main invariant of the LIFO worklist loop: a successful run leaves the
accumulator at the initial value plus every pending contribution. -/
theorem runLoop_correct {adj : Colour → List (Colour × Int)}
    {rank : Colour → Nat} (hA : AdjRanked adj rank) :
    ∀ (fuel : Nat) (wl : List (Colour × Colour × Int))
      (acc r : List ((Colour × Colour) × Int)),
      runLoop adj fuel wl acc = some r →
      ∀ o d : Colour,
        dictLookupD r (o, d) 0 =
          dictLookupD acc (o, d) 0 + wlContrib adj rank wl o d := by
  intro fuel
  induction fuel with
  | zero =>
      intro wl acc r h o d
      cases wl with
      | nil =>
          simp only [runLoop, Option.some_inj] at h
          subst h
          simp [wlContrib_nil]
      | cons e rest => simp [runLoop] at h
  | succ f ih =>
      intro wl acc r h o d
      cases wl with
      | nil =>
          simp only [runLoop, Option.some_inj] at h
          subst h
          simp [wlContrib_nil]
      | cons e rest =>
          obtain ⟨p, v, c⟩ := e
          have hstep :
              runLoop adj (f + 1) ((p, v, c) :: rest) acc =
                runLoop adj f ((newEntries adj p v c).reverse ++ rest)
                  (bumpMany acc (pairDeltas adj p v c)) := rfl
          rw [hstep] at h
          rw [ih _ _ _ h o d, wlContrib_append, wlContrib_reverse,
            wlContrib_cons]
          have hbal := step_balance hA acc p v c o d
          simp only [] at hbal ⊢
          linarith [hbal]

/-- Pending contribution of the seed worklist: exactly the full path sum out
of `o`. -/
theorem wlContrib_initial (rules : List ((Colour × Colour) × Int))
    (rank : Colour → Nat) (o d : Colour) :
    wlContrib (routesFrom rules) rank (initialWorklist rules) o d =
      pathSumN (routesFrom rules) (rank o) o d := by
  unfold initialWorklist
  rw [wlContrib_reverse]
  unfold wlContrib
  rw [List.map_map]
  have hcongr :
      (containersOf rules).map
          ((fun e : Colour × Colour × Int =>
            if e.1 = o then e.2.2 * pathSumN (routesFrom rules) (rank e.2.1) e.2.1 d
            else 0) ∘ (fun x => (x, x, (1 : Int)))) =
        (containersOf rules).map
          (fun x => if x = o
            then pathSumN (routesFrom rules) (rank x) x d else 0) := by
    apply List.map_congr_left
    intro x _
    simp [Function.comp_apply]
  rw [hcongr, sum_map_ite_singleton (nodup_containersOf rules) o _]
  by_cases ho : o ∈ containersOf rules
  · simp [ho]
  · rw [if_neg ho, pathSumN_empty_adj (routesFrom_eq_nil ho)]

/-- Every successful compilation computes the weighted transitive closure:
the cache value at `(o, d)` (with default `0`) is the sum over all directed
paths from `o` to `d` of the product of edge multiplicities. -/
theorem compileCache_lookup {rules : List ((Colour × Colour) × Int)}
    {rank : Colour → Nat} {fuel : Nat} {r : List ((Colour × Colour) × Int)}
    (hrank : RankedAcyclic rules rank) (h : compileCache fuel rules = some r)
    (o d : Colour) :
    dictLookupD r (o, d) 0 = pathSumN (routesFrom rules) (rank o) o d := by
  have hA := adjRanked_of_rankedAcyclic hrank
  rw [runLoop_correct hA fuel _ _ _ h o d,
    wlContrib_initial rules rank o d]
  simp [dictLookupD, dictLookup]

/-! ## Positivity of entries and cache values -/

theorem runLoop_valsPos {adj : Colour → List (Colour × Int)}
    (hadj : ∀ v : Colour, ∀ sw ∈ adj v, 0 < sw.2) :
    ∀ (fuel : Nat) (wl : List (Colour × Colour × Int))
      (acc r : List ((Colour × Colour) × Int)),
      (∀ e ∈ wl, 0 < e.2.2) → ValsPos acc →
      runLoop adj fuel wl acc = some r → ValsPos r := by
  intro fuel
  induction fuel with
  | zero =>
      intro wl acc r hwl hacc h
      cases wl with
      | nil =>
          simp only [runLoop, Option.some_inj] at h
          subst h; exact hacc
      | cons e rest => simp [runLoop] at h
  | succ f ih =>
      intro wl acc r hwl hacc h
      cases wl with
      | nil =>
          simp only [runLoop, Option.some_inj] at h
          subst h; exact hacc
      | cons e rest =>
          obtain ⟨p, v, c⟩ := e
          have hc : 0 < c := hwl (p, v, c) (List.mem_cons_self _ _)
          have hstep :
              runLoop adj (f + 1) ((p, v, c) :: rest) acc =
                runLoop adj f ((newEntries adj p v c).reverse ++ rest)
                  (bumpMany acc (pairDeltas adj p v c)) := rfl
          rw [hstep] at h
          apply ih _ _ _ ?_ ?_ h
          · intro e' he'
            rcases List.mem_append.1 he' with h1 | h1
            · rw [List.mem_reverse] at h1
              obtain ⟨sw, hsw, he⟩ := List.mem_map.1 h1
              rw [← he]
              exact mul_pos hc (hadj v sw hsw)
            · exact hwl e' (List.mem_cons_of_mem _ h1)
          · apply valsPos_bumpMany hacc
            intro kv hkv
            obtain ⟨sw, hsw, he⟩ := List.mem_map.1 hkv
            rw [← he]
            exact mul_pos hc (hadj v sw hsw)

theorem routesFrom_pos {rules : List ((Colour × Colour) × Int)}
    (hpos : PositiveRules rules) :
    ∀ v : Colour, ∀ sw ∈ routesFrom rules v, 0 < sw.2 := by
  intro v sw hsw
  obtain ⟨s, w⟩ := sw
  rw [mem_routesFrom] at hsw
  exact hpos ((v, s), w) hsw

theorem initialWorklist_counts (rules : List ((Colour × Colour) × Int)) :
    ∀ e ∈ initialWorklist rules, 0 < e.2.2 := by
  intro e he
  unfold initialWorklist at he
  rw [List.mem_reverse] at he
  obtain ⟨x, _, hx⟩ := List.mem_map.1 he
  rw [← hx]
  exact Int.zero_lt_one

theorem compileCache_valsPos {rules : List ((Colour × Colour) × Int)}
    {fuel : Nat} {r : List ((Colour × Colour) × Int)}
    (hpos : PositiveRules rules) (h : compileCache fuel rules = some r) :
    ValsPos r :=
  runLoop_valsPos (routesFrom_pos hpos) fuel _ _ _
    (initialWorklist_counts rules) (fun kv hkv => by simp at hkv) h

/-! ## Determinism of the loop across fuels -/

theorem runLoop_mono {adj : Colour → List (Colour × Int)} :
    ∀ (fuel fuel' : Nat) (wl : List (Colour × Colour × Int))
      (acc r : List ((Colour × Colour) × Int)),
      fuel ≤ fuel' → runLoop adj fuel wl acc = some r →
      runLoop adj fuel' wl acc = some r := by
  intro fuel
  induction fuel with
  | zero =>
      intro fuel' wl acc r _ h
      cases wl with
      | nil =>
          simp only [runLoop, Option.some_inj] at h
          subst h
          cases fuel' <;> rfl
      | cons e rest => simp [runLoop] at h
  | succ f ih =>
      intro fuel' wl acc r hle h
      cases wl with
      | nil =>
          simp only [runLoop, Option.some_inj] at h
          subst h
          cases fuel' <;> rfl
      | cons e rest =>
          obtain ⟨p, v, c⟩ := e
          obtain ⟨f', rfl⟩ : ∃ f', fuel' = f' + 1 := ⟨fuel' - 1, by omega⟩
          exact ih f' _ _ _ (by omega) h

theorem compileCache_det {rules : List ((Colour × Colour) × Int)}
    {f1 f2 : Nat} {r1 r2 : List ((Colour × Colour) × Int)}
    (h1 : compileCache f1 rules = some r1)
    (h2 : compileCache f2 rules = some r2) : r1 = r2 := by
  unfold compileCache at h1 h2
  rcases le_total f1 f2 with hle | hle
  · have := runLoop_mono f1 f2 _ _ _ hle h1
    rw [this] at h2
    exact Option.some_inj.1 h2
  · have := runLoop_mono f2 f1 _ _ _ hle h2
    rw [this] at h1
    exact (Option.some_inj.1 h1).symm

/-! ## Termination of the worklist loop on ranked-acyclic graphs -/

/-- Total pops still owed by a worklist. -/
def wlMeasure (adj : Colour → List (Colour × Int)) (rank : Colour → Nat)
    (wl : List (Colour × Colour × Int)) : Nat :=
  (wl.map (fun e => workN adj (rank e.2.1) e.2.1)).sum

theorem wlMeasure_append (adj : Colour → List (Colour × Int))
    (rank : Colour → Nat) (w1 w2 : List (Colour × Colour × Int)) :
    wlMeasure adj rank (w1 ++ w2) =
      wlMeasure adj rank w1 + wlMeasure adj rank w2 := by
  simp [wlMeasure]

theorem wlMeasure_reverse (adj : Colour → List (Colour × Int))
    (rank : Colour → Nat) (wl : List (Colour × Colour × Int)) :
    wlMeasure adj rank wl.reverse = wlMeasure adj rank wl := by
  simp [wlMeasure, List.map_reverse, List.sum_reverse]

/-- Popping an entry with frontier `v` pays one pop and leaves exactly the
work of its successor entries. -/
theorem wlMeasure_step {adj : Colour → List (Colour × Int)}
    {rank : Colour → Nat} (hA : AdjRanked adj rank) (p v : Colour) (c : Int) :
    wlMeasure adj rank (newEntries adj p v c) + 1 = workN adj (rank v) v := by
  by_cases ha : adj v = []
  · simp [wlMeasure, newEntries, ha, workN_empty_adj ha]
  · obtain ⟨sw0, hsw0⟩ := List.exists_mem_of_ne_nil (adj v) ha
    have hrv : 0 < rank v := (Nat.zero_le _).trans_lt (hA v sw0 hsw0)
    obtain ⟨g, hg⟩ : ∃ g, rank v = g + 1 := ⟨rank v - 1, by omega⟩
    rw [hg]
    show wlMeasure adj rank (newEntries adj p v c) + 1 =
      1 + ((adj v).map (fun sw => workN adj g sw.1)).sum
    rw [Nat.add_comm]
    apply congrArg (1 + ·)
    unfold wlMeasure newEntries
    rw [List.map_map]
    apply congrArg List.sum
    apply List.map_congr_left
    intro sw hsw
    have hlt : rank sw.1 < rank v := hA v sw hsw
    simp only [Function.comp_apply]
    exact workN_stable hA (rank sw.1) sw.1 le_rfl (rank sw.1) g le_rfl
      (by omega)

theorem runLoop_terminates {adj : Colour → List (Colour × Int)}
    {rank : Colour → Nat} (hA : AdjRanked adj rank) :
    ∀ (fuel : Nat) (wl : List (Colour × Colour × Int))
      (acc : List ((Colour × Colour) × Int)),
      wlMeasure adj rank wl ≤ fuel →
      ∃ r, runLoop adj fuel wl acc = some r := by
  intro fuel
  induction fuel with
  | zero =>
      intro wl acc h
      cases wl with
      | nil => exact ⟨acc, rfl⟩
      | cons e rest =>
          exfalso
          have h1 : 1 ≤ workN adj (rank e.2.1) e.2.1 := workN_pos adj _ _
          have h2 : wlMeasure adj rank (e :: rest) =
              workN adj (rank e.2.1) e.2.1 + wlMeasure adj rank rest := by
            simp [wlMeasure]
          omega
  | succ f ih =>
      intro wl acc h
      cases wl with
      | nil => exact ⟨acc, rfl⟩
      | cons e rest =>
          obtain ⟨p, v, c⟩ := e
          have hstep :
              runLoop adj (f + 1) ((p, v, c) :: rest) acc =
                runLoop adj f ((newEntries adj p v c).reverse ++ rest)
                  (bumpMany acc (pairDeltas adj p v c)) := rfl
          rw [hstep]
          apply ih
          have hm : wlMeasure adj rank ((p, v, c) :: rest) =
              workN adj (rank v) v + wlMeasure adj rank rest := by
            simp [wlMeasure]
          have hstepm := wlMeasure_step hA p v c
          rw [wlMeasure_append, wlMeasure_reverse]
          omega

/-- On a ranked-acyclic rule set the closure compilation terminates. -/
theorem compileCache_terminates {rules : List ((Colour × Colour) × Int)}
    {rank : Colour → Nat} (hrank : RankedAcyclic rules rank) :
    ∃ fuel r, compileCache fuel rules = some r := by
  have hA := adjRanked_of_rankedAcyclic hrank
  obtain ⟨r, hr⟩ := runLoop_terminates hA
    (wlMeasure (routesFrom rules) rank (initialWorklist rules))
    (initialWorklist rules) [] le_rfl
  exact ⟨_, r, hr⟩

/-! ## A FIFO processing strategy for the same worklist algorithm -/

/-- The same worklist loop, but popping the oldest entry first and appending
new entries at the other end (FIFO instead of the code's LIFO `pop()`). -/
def runLoopFIFO (adj : Colour → List (Colour × Int)) :
    Nat → List (Colour × Colour × Int) → List ((Colour × Colour) × Int) →
    Option (List ((Colour × Colour) × Int))
  | _, [], acc => some acc
  | 0, _ :: _, _ => none
  | fuel + 1, (origin, via, count) :: rest, acc =>
      runLoopFIFO adj fuel
        (rest ++ newEntries adj origin via count)
        (bumpMany acc (pairDeltas adj origin via count))

/-- `_compile_transitive_path_cache` with the FIFO strategy. -/
def compileCacheFIFO (fuel : Nat)
    (rules : List ((Colour × Colour) × Int)) :
    Option (List ((Colour × Colour) × Int)) :=
  runLoopFIFO (routesFrom rules) fuel (initialWorklist rules) []

theorem runLoopFIFO_correct {adj : Colour → List (Colour × Int)}
    {rank : Colour → Nat} (hA : AdjRanked adj rank) :
    ∀ (fuel : Nat) (wl : List (Colour × Colour × Int))
      (acc r : List ((Colour × Colour) × Int)),
      runLoopFIFO adj fuel wl acc = some r →
      ∀ o d : Colour,
        dictLookupD r (o, d) 0 =
          dictLookupD acc (o, d) 0 + wlContrib adj rank wl o d := by
  intro fuel
  induction fuel with
  | zero =>
      intro wl acc r h o d
      cases wl with
      | nil =>
          simp only [runLoopFIFO, Option.some_inj] at h
          subst h
          simp [wlContrib_nil]
      | cons e rest => simp [runLoopFIFO] at h
  | succ f ih =>
      intro wl acc r h o d
      cases wl with
      | nil =>
          simp only [runLoopFIFO, Option.some_inj] at h
          subst h
          simp [wlContrib_nil]
      | cons e rest =>
          obtain ⟨p, v, c⟩ := e
          have hstep :
              runLoopFIFO adj (f + 1) ((p, v, c) :: rest) acc =
                runLoopFIFO adj f (rest ++ newEntries adj p v c)
                  (bumpMany acc (pairDeltas adj p v c)) := rfl
          rw [hstep] at h
          rw [ih _ _ _ h o d, wlContrib_append, wlContrib_cons]
          have hbal := step_balance hA acc p v c o d
          simp only [] at hbal ⊢
          linarith [hbal]

theorem runLoopFIFO_valsPos {adj : Colour → List (Colour × Int)}
    (hadj : ∀ v : Colour, ∀ sw ∈ adj v, 0 < sw.2) :
    ∀ (fuel : Nat) (wl : List (Colour × Colour × Int))
      (acc r : List ((Colour × Colour) × Int)),
      (∀ e ∈ wl, 0 < e.2.2) → ValsPos acc →
      runLoopFIFO adj fuel wl acc = some r → ValsPos r := by
  intro fuel
  induction fuel with
  | zero =>
      intro wl acc r hwl hacc h
      cases wl with
      | nil =>
          simp only [runLoopFIFO, Option.some_inj] at h
          subst h; exact hacc
      | cons e rest => simp [runLoopFIFO] at h
  | succ f ih =>
      intro wl acc r hwl hacc h
      cases wl with
      | nil =>
          simp only [runLoopFIFO, Option.some_inj] at h
          subst h; exact hacc
      | cons e rest =>
          obtain ⟨p, v, c⟩ := e
          have hc : 0 < c := hwl (p, v, c) (List.mem_cons_self _ _)
          have hstep :
              runLoopFIFO adj (f + 1) ((p, v, c) :: rest) acc =
                runLoopFIFO adj f (rest ++ newEntries adj p v c)
                  (bumpMany acc (pairDeltas adj p v c)) := rfl
          rw [hstep] at h
          apply ih _ _ _ ?_ ?_ h
          · intro e' he'
            rcases List.mem_append.1 he' with h1 | h1
            · exact hwl e' (List.mem_cons_of_mem _ h1)
            · obtain ⟨sw, hsw, he⟩ := List.mem_map.1 h1
              rw [← he]
              exact mul_pos hc (hadj v sw hsw)
          · apply valsPos_bumpMany hacc
            intro kv hkv
            obtain ⟨sw, hsw, he⟩ := List.mem_map.1 hkv
            rw [← he]
            exact mul_pos hc (hadj v sw hsw)

theorem runLoopFIFO_terminates {adj : Colour → List (Colour × Int)}
    {rank : Colour → Nat} (hA : AdjRanked adj rank) :
    ∀ (fuel : Nat) (wl : List (Colour × Colour × Int))
      (acc : List ((Colour × Colour) × Int)),
      wlMeasure adj rank wl ≤ fuel →
      ∃ r, runLoopFIFO adj fuel wl acc = some r := by
  intro fuel
  induction fuel with
  | zero =>
      intro wl acc h
      cases wl with
      | nil => exact ⟨acc, rfl⟩
      | cons e rest =>
          exfalso
          have h1 : 1 ≤ workN adj (rank e.2.1) e.2.1 := workN_pos adj _ _
          have h2 : wlMeasure adj rank (e :: rest) =
              workN adj (rank e.2.1) e.2.1 + wlMeasure adj rank rest := by
            simp [wlMeasure]
          omega
  | succ f ih =>
      intro wl acc h
      cases wl with
      | nil => exact ⟨acc, rfl⟩
      | cons e rest =>
          obtain ⟨p, v, c⟩ := e
          have hstep :
              runLoopFIFO adj (f + 1) ((p, v, c) :: rest) acc =
                runLoopFIFO adj f (rest ++ newEntries adj p v c)
                  (bumpMany acc (pairDeltas adj p v c)) := rfl
          rw [hstep]
          apply ih
          have hm : wlMeasure adj rank ((p, v, c) :: rest) =
              workN adj (rank v) v + wlMeasure adj rank rest := by
            simp [wlMeasure]
          have hstepm := wlMeasure_step hA p v c
          rw [wlMeasure_append]
          omega

/-! ## Reachability lemmas -/

theorem reaches_inv {adj : Colour → List (Colour × Int)} {o d : Colour}
    (h : Reaches adj o d) :
    ∃ sw ∈ adj o, sw.1 = d ∨ Reaches adj sw.1 d := by
  cases h with
  | @edge _ _ w h1 => exact ⟨(d, w), h1, Or.inl rfl⟩
  | @cons _ s _ w h1 h2 => exact ⟨(s, w), h1, Or.inr h2⟩

theorem reaches_of_path {adj : Colour → List (Colour × Int)} :
    ∀ {fuel : Nat} {o d : Colour} {p : List (Colour × Int)},
      p ∈ pathsFrom adj fuel o → pathDest p = some d → Reaches adj o d := by
  intro fuel
  induction fuel with
  | zero => intro o d p hp; simp [pathsFrom] at hp
  | succ f ih =>
      intro o d p hp hd
      simp only [pathsFrom, List.mem_flatMap, List.mem_cons] at hp
      obtain ⟨e, he, hp | hp⟩ := hp
      · rw [hp] at hd
        simp only [pathDest, List.getLast?_singleton, Option.map_some',
          Option.some_inj] at hd
        exact Reaches.edge (show (d, e.2) ∈ adj o by
          rw [← hd, Prod.mk.eta]; exact he)
      · obtain ⟨q, hq, hqe⟩ := List.mem_map.1 hp
        rw [← hqe] at hd
        have hne : q ≠ [] := pathsFrom_ne_nil hq
        obtain ⟨e0, q0, rfl⟩ := List.exists_cons_of_ne_nil hne
        simp only [pathDest, List.getLast?_cons_cons] at hd
        have hreach : Reaches adj e.1 d := ih hq hd
        exact Reaches.cons (show (e.1, e.2) ∈ adj o by
          rw [Prod.mk.eta]; exact he) hreach

theorem path_of_reaches {adj : Colour → List (Colour × Int)} {o d : Colour}
    (h : Reaches adj o d) :
    ∃ fuel p, p ∈ pathsFrom adj fuel o ∧ pathDest p = some d := by
  induction h with
  | @edge o' d' w h1 =>
      refine ⟨1, [(d', w)], ?_, ?_⟩
      · simp only [pathsFrom, List.mem_flatMap, List.mem_cons]
        exact ⟨(d', w), h1, Or.inl rfl⟩
      · simp [pathDest]
  | @cons o' s d' w h1 _ ih =>
      obtain ⟨f, p, hp, hd⟩ := ih
      refine ⟨f + 1, (s, w) :: p, ?_, ?_⟩
      · simp only [pathsFrom, List.mem_flatMap, List.mem_cons]
        exact ⟨(s, w), h1, Or.inr (List.mem_map.2 ⟨p, hp, rfl⟩)⟩
      · obtain ⟨e0, q0, rfl⟩ :=
          List.exists_cons_of_ne_nil (pathsFrom_ne_nil hp)
        simpa [pathDest, List.getLast?_cons_cons] using hd

theorem reaches_rank {adj : Colour → List (Colour × Int)}
    {rank : Colour → Nat} (hA : AdjRanked adj rank) {o d : Colour}
    (h : Reaches adj o d) : rank d < rank o := by
  induction h with
  | @edge o' d' w h1 => exact hA o' (d', w) h1
  | @cons o' s d' w h1 _ ih => exact ih.trans (hA o' (s, w) h1)

theorem not_reaches_self {adj : Colour → List (Colour × Int)}
    {rank : Colour → Nat} (hA : AdjRanked adj rank) (x : Colour) :
    ¬ Reaches adj x x :=
  fun h => lt_irrefl _ (reaches_rank hA h)

/-! ## Positivity of path sums -/

theorem pathWeight_pos {adj : Colour → List (Colour × Int)}
    (hadj : ∀ v : Colour, ∀ sw ∈ adj v, 0 < sw.2) {fuel : Nat} {o : Colour}
    {p : List (Colour × Int)} (hp : p ∈ pathsFrom adj fuel o) :
    0 < pathWeight p := by
  apply List.prod_pos
  intro w hw
  obtain ⟨e, he, hew⟩ := List.mem_map.1 hw
  obtain ⟨v, hv⟩ := mem_adj_of_mem_path hp e he
  rw [← hew]
  exact hadj v e hv

theorem pathSumN_pos_iff {adj : Colour → List (Colour × Int)}
    (hadj : ∀ v : Colour, ∀ sw ∈ adj v, 0 < sw.2) (fuel : Nat)
    (o d : Colour) :
    0 < pathSumN adj fuel o d ↔
      ∃ p ∈ pathsFrom adj fuel o, pathDest p = some d := by
  constructor
  · intro h
    by_contra hne
    push_neg at hne
    have hfil : (pathsFrom adj fuel o).filter
        (fun p => pathDest p = some d) = [] := by
      rw [List.filter_eq_nil_iff]
      intro p hp
      simp [hne p hp]
    rw [pathSumN, hfil] at h
    simp at h
  · rintro ⟨p, hp, hd⟩
    apply List.sum_pos
    · intro x hx
      obtain ⟨q, hq, hqx⟩ := List.mem_map.1 hx
      rw [← hqx]
      exact pathWeight_pos hadj (List.mem_of_mem_filter hq)
    · have hpf : p ∈ (pathsFrom adj fuel o).filter
          (fun p => pathDest p = some d) :=
        List.mem_filter.2 ⟨hp, by simp [hd]⟩
      intro hnil
      rw [List.map_eq_nil_iff] at hnil
      rw [hnil] at hpf
      simp at hpf

/-! ## Non-termination on cyclic rule sets -/

/-- A frontier that can reach a cycle: expanding it forever re-queues doomed
entries, so the worklist never empties. -/
def Doomed (adj : Colour → List (Colour × Int)) (v : Colour) : Prop :=
  ∃ z, (v = z ∨ Reaches adj v z) ∧ Reaches adj z z

theorem doomed_step {adj : Colour → List (Colour × Int)} {v : Colour}
    (h : Doomed adj v) : ∃ sw ∈ adj v, Doomed adj sw.1 := by
  obtain ⟨z, hvz | hvz, hzz⟩ := h
  · subst hvz
    obtain ⟨sw, hsw, hd | hd⟩ := reaches_inv hzz
    · exact ⟨sw, hsw, v, Or.inl hd, hzz⟩
    · exact ⟨sw, hsw, v, Or.inr hd, hzz⟩
  · obtain ⟨sw, hsw, hd | hd⟩ := reaches_inv hvz
    · exact ⟨sw, hsw, z, Or.inl hd, hzz⟩
    · exact ⟨sw, hsw, z, Or.inr hd, hzz⟩

theorem runLoop_doomed {adj : Colour → List (Colour × Int)} :
    ∀ (fuel : Nat) (wl : List (Colour × Colour × Int))
      (acc : List ((Colour × Colour) × Int)),
      (∃ e ∈ wl, Doomed adj e.2.1) → runLoop adj fuel wl acc = none := by
  intro fuel
  induction fuel with
  | zero =>
      rintro wl acc ⟨e, he, _⟩
      cases wl with
      | nil => simp at he
      | cons e0 rest => rfl
  | succ f ih =>
      rintro wl acc ⟨e, he, hdoom⟩
      cases wl with
      | nil => simp at he
      | cons e0 rest =>
          obtain ⟨p, v, c⟩ := e0
          have hstep :
              runLoop adj (f + 1) ((p, v, c) :: rest) acc =
                runLoop adj f ((newEntries adj p v c).reverse ++ rest)
                  (bumpMany acc (pairDeltas adj p v c)) := rfl
          rw [hstep]
          apply ih
          rcases List.mem_cons.1 he with h1 | h1
          · have hv : Doomed adj v := by
              rw [h1] at hdoom
              exact hdoom
            obtain ⟨sw, hsw, hds⟩ := doomed_step hv
            refine ⟨(p, sw.1, c * sw.2), ?_, hds⟩
            apply List.mem_append.2 (Or.inl ?_)
            rw [List.mem_reverse]
            exact List.mem_map.2 ⟨sw, hsw, rfl⟩
          · exact ⟨e, List.mem_append.2 (Or.inr h1), hdoom⟩

/-- A cycle anywhere in the rule set makes the compilation loop fail for
every amount of fuel: it never terminates. -/
theorem compileCache_cyclic {rules : List ((Colour × Colour) × Int)}
    {z : Colour} (h : Reaches (routesFrom rules) z z) :
    ∀ fuel, compileCache fuel rules = none := by
  intro fuel
  apply runLoop_doomed
  refine ⟨(z, z, 1), ?_, z, Or.inl rfl, h⟩
  unfold initialWorklist
  rw [List.mem_reverse]
  refine List.mem_map.2 ⟨z, ?_, rfl⟩
  obtain ⟨sw, hsw, _⟩ := reaches_inv h
  exact mem_containersOf_of_routes hsw

/-! ## `all_colours` refinement -/

/-- The raw stream of edge endpoints: for each stored edge in insertion
order, the container then the contained. -/
def endpointStream : List ((Colour × Colour) × Int) → List Colour
  | [] => []
  | r :: rest => r.1.1 :: r.1.2 :: endpointStream rest

theorem mem_endpointStream {rules : List ((Colour × Colour) × Int)}
    {x : Colour} :
    x ∈ endpointStream rules ↔ ∃ r ∈ rules, x = r.1.1 ∨ x = r.1.2 := by
  induction rules with
  | nil => simp [endpointStream]
  | cons r rest ih =>
      simp only [endpointStream, List.mem_cons, ih]
      constructor
      · rintro (h | h | ⟨r', hr', h⟩)
        · exact ⟨r, Or.inl rfl, Or.inl h⟩
        · exact ⟨r, Or.inl rfl, Or.inr h⟩
        · exact ⟨r', Or.inr hr', h⟩
      · rintro ⟨r', hr' | hr', h⟩
        · subst hr'
          rcases h with h | h
          · exact Or.inl h
          · exact Or.inr (Or.inl h)
        · exact Or.inr (Or.inr ⟨r', hr', h⟩)

theorem allColoursAux_eq_firstSeenAux :
    ∀ (rules : List ((Colour × Colour) × Int)) (seen : List Colour),
      allColoursAux rules seen =
        firstSeenAux (endpointStream rules) seen := by
  intro rules
  induction rules with
  | nil => intro seen; rfl
  | cons r rest ih =>
      intro seen
      obtain ⟨⟨a, b⟩, w⟩ := r
      by_cases ha : a ∈ seen
      · by_cases hb : b ∈ seen
        · have hb' : b ∈ a :: seen := List.mem_cons_of_mem a hb
          simp [allColoursAux, firstSeenAux, endpointStream, ha, hb,
            hb', ih]
        · simp [allColoursAux, firstSeenAux, endpointStream, ha, hb, ih]
      · by_cases hb : b ∈ a :: seen
        · simp [allColoursAux, firstSeenAux, endpointStream, ha, hb, ih]
        · simp [allColoursAux, firstSeenAux, endpointStream, ha, hb, ih]

/-- `all_colours` yields exactly the first-occurrence dedup of the stream of
edge endpoints, container before contained, edges in insertion order. -/
theorem allColours_eq_firstSeen (rules : List ((Colour × Colour) × Int)) :
    allColours rules = firstSeen (endpointStream rules) :=
  allColoursAux_eq_firstSeenAux rules []

theorem mem_allColours {rules : List ((Colour × Colour) × Int)} {x : Colour} :
    x ∈ allColours rules ↔ ∃ r ∈ rules, x = r.1.1 ∨ x = r.1.2 := by
  rw [allColours_eq_firstSeen, firstSeen]
  rw [mem_firstSeenAux]
  simp [mem_endpointStream]

theorem nodup_allColours (rules : List ((Colour × Colour) × Int)) :
    (allColours rules).Nodup := by
  rw [allColours_eq_firstSeen]
  exact nodup_firstSeen _

/-! ## Method-level helper lemmas -/

theorem get_cache_spec {fuel : Nat} {s s' : BagRuleset}
    {m : List ((Colour × Colour) × Int)}
    (h : s.get_transitive_path_cache fuel = some (m, s')) :
    s'.rules = s.rules ∧ s'.transitive_paths = some m ∧
      (s.transitive_paths = some m ∨ compileCache fuel s.rules = some m) := by
  unfold BagRuleset.get_transitive_path_cache at h
  cases hc : s.transitive_paths with
  | some m0 =>
      rw [hc] at h
      simp only [Option.some_inj, Prod.mk.injEq] at h
      obtain ⟨h1, h2⟩ := h
      subst h1
      subst h2
      exact ⟨rfl, hc, Or.inl rfl⟩
  | none =>
      rw [hc] at h
      cases hcomp : compileCache fuel s.rules with
      | none => rw [hcomp] at h; simp at h
      | some r =>
          rw [hcomp] at h
          simp only [Option.map_some', Option.some_inj, Prod.mk.injEq] at h
          obtain ⟨h1, h2⟩ := h
          subst h1
          subst h2
          exact ⟨rfl, rfl, Or.inr rfl⟩

theorem can_spec {fuel : Nat} {s s' : BagRuleset} {a b : Colour} {v : Bool}
    (h : s.can_transitively_contain fuel a b = some (v, s')) :
    ∃ m, s.get_transitive_path_cache fuel = some (m, s') ∧
      v = dictContains m (a, b) := by
  unfold BagRuleset.can_transitively_contain at h
  cases hg : s.get_transitive_path_cache fuel with
  | none => rw [hg] at h; simp at h
  | some ms =>
      obtain ⟨m0, s0⟩ := ms
      rw [hg] at h
      simp only [Option.map_some', Option.some_inj, Prod.mk.injEq] at h
      obtain ⟨h1, h2⟩ := h
      subst h2
      exact ⟨m0, rfl, h1.symm⟩

theorem total_spec {fuel : Nat} {s s' : BagRuleset} {a : Colour} {t : Int}
    (h : s.total_contained_transitively fuel a = some (t, s')) :
    ∃ m, s.get_transitive_path_cache fuel = some (m, s') ∧
      t = ((allColours s'.rules).map
        (fun x => dictLookupD m (a, x) 0)).sum := by
  unfold BagRuleset.total_contained_transitively at h
  cases hg : s.get_transitive_path_cache fuel with
  | none => rw [hg] at h; simp at h
  | some ms =>
      obtain ⟨m0, s0⟩ := ms
      rw [hg] at h
      simp only [Option.map_some', Option.some_inj, Prod.mk.injEq] at h
      obtain ⟨h1, h2⟩ := h
      subst h2
      exact ⟨m0, rfl, h1.symm⟩

/-! ## Reachable object states -/

/-- The `BagRuleset` states reachable from `BagRuleset()` by any sequence of
`add_rule` calls and queries. -/
inductive ReachableState : BagRuleset → Prop
  | init : ReachableState BagRuleset.empty
  | add {s : BagRuleset} {c : Colour} {m : List (Colour × Int)} :
      ReachableState s → ReachableState (s.add_rule c m)
  | query_cache {s s' : BagRuleset} {fuel : Nat}
      {m : List ((Colour × Colour) × Int)} :
      ReachableState s → s.get_transitive_path_cache fuel = some (m, s') →
      ReachableState s'
  | query_can {s s' : BagRuleset} {fuel : Nat} {a b : Colour} {v : Bool} :
      ReachableState s → s.can_transitively_contain fuel a b = some (v, s') →
      ReachableState s'
  | query_total {s s' : BagRuleset} {fuel : Nat} {a : Colour} {t : Int} :
      ReachableState s →
      s.total_contained_transitively fuel a = some (t, s') →
      ReachableState s'
  | query_colours {s s' : BagRuleset} {cs : List Colour} :
      ReachableState s → s.all_colours = (cs, s') → ReachableState s'

/-- The cache, whenever non-null, is what a from-scratch recomputation over
the current rule set would produce. -/
def CacheConsistent (s : BagRuleset) : Prop :=
  ∀ m, s.transitive_paths = some m →
    ∀ (f : Nat) (r : List ((Colour × Colour) × Int)),
      compileCache f s.rules = some r → r = m

theorem cacheConsistent_get {fuel : Nat} {s s' : BagRuleset}
    {m : List ((Colour × Colour) × Int)} (hs : CacheConsistent s)
    (hq : s.get_transitive_path_cache fuel = some (m, s')) :
    CacheConsistent s' := by
  obtain ⟨hrules, hcache, hsrc⟩ := get_cache_spec hq
  intro m' hm' f r hr
  rw [hcache] at hm'
  have hmm : m' = m := (Option.some_inj.1 hm').symm
  subst hmm
  rw [hrules] at hr
  rcases hsrc with h1 | h1
  · exact hs m' h1 f r hr
  · exact compileCache_det hr h1

theorem reachable_cacheConsistent {s : BagRuleset}
    (h : ReachableState s) : CacheConsistent s := by
  induction h with
  | init => intro m hm; simp [BagRuleset.empty] at hm
  | add _ _ =>
      intro m hm
      simp [BagRuleset.add_rule] at hm
  | query_cache _ hq ih => exact cacheConsistent_get ih hq
  | query_can _ hq ih =>
      obtain ⟨m, hg, _⟩ := can_spec hq
      exact cacheConsistent_get ih hg
  | query_total _ hq ih =>
      obtain ⟨m, hg, _⟩ := total_spec hq
      exact cacheConsistent_get ih hg
  | query_colours _ hq ih =>
      rename_i s0 s1 cs0 hrs0
      have hs2 : s0 = s1 := congrArg Prod.snd hq
      exact hs2 ▸ ih

/-! ## Positivity of stored rules -/

theorem valsPos_dictInsert {K : Type} [DecidableEq K]
    {l : List (K × Int)} {k : K} {v : Int} (hl : ValsPos l) (hv : 0 < v) :
    ValsPos (dictInsert l k v) := by
  induction l with
  | nil =>
      intro kv hkv
      simp [dictInsert] at hkv
      simp [hkv, hv]
  | cons kv0 rest ih =>
      obtain ⟨k0, v0⟩ := kv0
      have h0 : 0 < v0 := hl (k0, v0) (List.mem_cons_self _ _)
      have hrest : ValsPos rest := fun kv h => hl kv (List.mem_cons_of_mem _ h)
      intro kv hkv
      by_cases h : k0 = k
      · simp only [dictInsert, if_pos h, List.mem_cons] at hkv
        rcases hkv with h1 | h1
        · rw [h1]; exact hv
        · exact hrest kv h1
      · simp only [dictInsert, if_neg h, List.mem_cons] at hkv
        rcases hkv with h1 | h1
        · rw [h1]; exact h0
        · exact ih hrest kv h1

theorem valsPos_addContents {rules : List ((Colour × Colour) × Int)}
    {c : Colour} {contains : List (Colour × Int)} (h : ValsPos rules) :
    ValsPos (addContents rules c contains) := by
  induction contains generalizing rules with
  | nil => exact h
  | cons cc rest ih =>
      have hstep : addContents rules c (cc :: rest) =
          addContents
            (if cc.2 ≤ 0 then rules else dictInsert rules (c, cc.1) cc.2)
            c rest := rfl
      rw [hstep]
      by_cases hc : cc.2 ≤ 0
      · rw [if_pos hc]; exact ih h
      · rw [if_neg hc]
        exact ih (valsPos_dictInsert h (by omega))

theorem reachable_positiveRules {s : BagRuleset}
    (h : ReachableState s) : PositiveRules s.rules := by
  induction h with
  | init => intro r hr; simp [BagRuleset.empty] at hr
  | add _ ih => exact valsPos_addContents ih
  | query_cache _ hq ih => rw [(get_cache_spec hq).1]; exact ih
  | query_can _ hq ih =>
      obtain ⟨m, hg, _⟩ := can_spec hq
      rw [(get_cache_spec hg).1]; exact ih
  | query_total _ hq ih =>
      obtain ⟨m, hg, _⟩ := total_spec hq
      rw [(get_cache_spec hg).1]; exact ih
  | query_colours _ hq ih =>
      rename_i s0 s1 cs0 hrs0
      have hs2 : s0 = s1 := congrArg Prod.snd hq
      exact hs2 ▸ ih

/-! ## Origins appearing in the compiled cache -/

theorem runLoop_origin_closed {adj : Colour → List (Colour × Int)}
    {P : Colour → Prop} :
    ∀ (fuel : Nat) (wl : List (Colour × Colour × Int))
      (acc r : List ((Colour × Colour) × Int)),
      (∀ e ∈ wl, P e.1) → (∀ kv ∈ acc, P kv.1.1) →
      runLoop adj fuel wl acc = some r → ∀ kv ∈ r, P kv.1.1 := by
  intro fuel
  induction fuel with
  | zero =>
      intro wl acc r hwl hacc h
      cases wl with
      | nil =>
          simp only [runLoop, Option.some_inj] at h
          subst h; exact hacc
      | cons e rest => simp [runLoop] at h
  | succ f ih =>
      intro wl acc r hwl hacc h
      cases wl with
      | nil =>
          simp only [runLoop, Option.some_inj] at h
          subst h; exact hacc
      | cons e rest =>
          obtain ⟨p, v, c⟩ := e
          have hp : P p := hwl (p, v, c) (List.mem_cons_self _ _)
          have hstep :
              runLoop adj (f + 1) ((p, v, c) :: rest) acc =
                runLoop adj f ((newEntries adj p v c).reverse ++ rest)
                  (bumpMany acc (pairDeltas adj p v c)) := rfl
          rw [hstep] at h
          apply ih _ _ _ ?_ ?_ h
          · intro e' he'
            rcases List.mem_append.1 he' with h1 | h1
            · rw [List.mem_reverse] at h1
              obtain ⟨sw, _, he⟩ := List.mem_map.1 h1
              rw [← he]
              exact hp
            · exact hwl e' (List.mem_cons_of_mem _ h1)
          · have hdel : ∀ kv ∈ pairDeltas adj p v c, P kv.1.1 := by
              intro kv hkv
              obtain ⟨sw, _, he⟩ := List.mem_map.1 hkv
              rw [← he]
              exact hp
            exact fun kv hkv =>
              keys_bumpMany (P := fun k => P k.1) hacc hdel kv hkv

theorem compileCache_origin_closed {rules : List ((Colour × Colour) × Int)}
    {fuel : Nat} {r : List ((Colour × Colour) × Int)} {c : Colour}
    (hc : ∀ rr ∈ rules, rr.1.1 ≠ c) (h : compileCache fuel rules = some r) :
    ∀ kv ∈ r, kv.1.1 ≠ c := by
  apply runLoop_origin_closed (P := fun o => o ≠ c) fuel _ _ _ ?_ ?_ h
  · intro e he
    unfold initialWorklist at he
    rw [List.mem_reverse] at he
    obtain ⟨x, hx, hxe⟩ := List.mem_map.1 he
    rw [← hxe]
    obtain ⟨rr, hrr, hrx⟩ := mem_containersOf.1 hx
    exact fun hxc => hc rr hrr (hrx.trans hxc)
  · intro kv hkv
    simp at hkv

/-! ## Derived correctness facts -/

/-- Cache membership is reachability: on a ranked-acyclic positive rule set,
a pair is in the compiled closure iff a directed path of length `≥ 1`
connects it. -/
theorem compileCache_mem_iff {rules : List ((Colour × Colour) × Int)}
    {rank : Colour → Nat} {fuel : Nat} {r : List ((Colour × Colour) × Int)}
    (hrank : RankedAcyclic rules rank) (hpos : PositiveRules rules)
    (h : compileCache fuel rules = some r) (o d : Colour) :
    dictContains r (o, d) = true ↔ Reaches (routesFrom rules) o d := by
  have hA := adjRanked_of_rankedAcyclic hrank
  have hadj := routesFrom_pos hpos
  rw [dictContains_iff_pos (compileCache_valsPos hpos h) _,
    compileCache_lookup hrank h o d]
  constructor
  · intro hgt
    obtain ⟨p, hp, hd⟩ := (pathSumN_pos_iff hadj (rank o) o d).1 hgt
    exact reaches_of_path hp hd
  · intro hr
    obtain ⟨f, p, hp, hd⟩ := path_of_reaches hr
    have hp' := pathsFrom_mono (le_max_left f (rank o)) hp
    have hgt : 0 < pathSumN (routesFrom rules) (max f (rank o)) o d :=
      (pathSumN_pos_iff hadj _ o d).2 ⟨p, hp', hd⟩
    have hst := pathSumN_stable hA d (rank o) o le_rfl
      (max f (rank o)) (rank o) (le_max_right _ _) le_rfl
    rw [hst] at hgt
    exact hgt

/-- Paths can only end at a node stored as the contained endpoint of some
rule, so the path sum to any colour outside `allColours` vanishes. -/
theorem pathSumN_not_endpoint {rules : List ((Colour × Colour) × Int)}
    {n : Colour} (hn : n ∉ allColours rules) (f : Nat) (c : Colour) :
    pathSumN (routesFrom rules) f c n = 0 := by
  have hfil : (pathsFrom (routesFrom rules) f c).filter
      (fun p => pathDest p = some n) = [] := by
    rw [List.filter_eq_nil_iff]
    intro p hp
    simp only [decide_eq_true_eq]
    intro hd
    obtain ⟨v, w, hv⟩ := pathDest_is_successor hp hd
    rw [mem_routesFrom] at hv
    exact hn (mem_allColours.2 ⟨((v, n), w), hv, Or.inr rfl⟩)
  rw [pathSumN, hfil]
  rfl

theorem compileCacheFIFO_lookup {rules : List ((Colour × Colour) × Int)}
    {rank : Colour → Nat} {fuel : Nat} {r : List ((Colour × Colour) × Int)}
    (hrank : RankedAcyclic rules rank)
    (h : compileCacheFIFO fuel rules = some r) (o d : Colour) :
    dictLookupD r (o, d) 0 = pathSumN (routesFrom rules) (rank o) o d := by
  have hA := adjRanked_of_rankedAcyclic hrank
  rw [runLoopFIFO_correct hA fuel _ _ _ h o d,
    wlContrib_initial rules rank o d]
  simp [dictLookupD, dictLookup]

theorem compileCacheFIFO_valsPos {rules : List ((Colour × Colour) × Int)}
    {fuel : Nat} {r : List ((Colour × Colour) × Int)}
    (hpos : PositiveRules rules) (h : compileCacheFIFO fuel rules = some r) :
    ValsPos r :=
  runLoopFIFO_valsPos (routesFrom_pos hpos) fuel _ _ _
    (initialWorklist_counts rules) (fun kv hkv => by simp at hkv) h

theorem compileCacheFIFO_terminates {rules : List ((Colour × Colour) × Int)}
    {rank : Colour → Nat} (hrank : RankedAcyclic rules rank) :
    ∃ fuel r, compileCacheFIFO fuel rules = some r := by
  have hA := adjRanked_of_rankedAcyclic hrank
  obtain ⟨r, hr⟩ := runLoopFIFO_terminates hA
    (wlMeasure (routesFrom rules) rank (initialWorklist rules))
    (initialWorklist rules) [] le_rfl
  exact ⟨_, r, hr⟩

theorem addContents_single_nonpos {rules : List ((Colour × Colour) × Int)}
    {c x : Colour} {w : Int} (hw : w ≤ 0) :
    addContents rules c [(x, w)] = rules := by
  simp [addContents, hw]

theorem addContents_single_pos {rules : List ((Colour × Colour) × Int)}
    {c x : Colour} {w : Int} (hw : 0 < w) :
    addContents rules c [(x, w)] = dictInsert rules (c, x) w := by
  have : ¬ w ≤ 0 := by omega
  simp [addContents, this]

/-! ## Claim theorems -/

/-- C6: inserting a rule for an already-present `(container, contained)` key
replaces the prior multiplicity rather than accumulating it: for every graph
state, `addRule(c, {x:2})` followed by `addRule(c, {x:5})` leaves the edge
`(c, x)` with weight exactly `5`, not `7`, and the resulting state is equal to
the one obtained by storing only the weight-`5` rule, so all subsequent
queries behave identically. -/
theorem day7_c6 (s : BagRuleset) (c x : Colour) :
    (s.add_rule c [(x, 2)]).add_rule c [(x, 5)] = s.add_rule c [(x, 5)] ∧
    dictLookup ((s.add_rule c [(x, 2)]).add_rule c [(x, 5)]).rules (c, x) =
      some 5 := by
  have h2 : ∀ l, addContents l c [(x, 2)] = dictInsert l (c, x) 2 :=
    fun l => addContents_single_pos (by norm_num)
  have h5 : ∀ l, addContents l c [(x, 5)] = dictInsert l (c, x) 5 :=
    fun l => addContents_single_pos (by norm_num)
  constructor
  · show BagRuleset.mk
        (addContents (addContents s.rules c [(x, 2)]) c [(x, 5)]) none =
      BagRuleset.mk (addContents s.rules c [(x, 5)]) none
    rw [h2, h5, h5, dictInsert_dictInsert_same]
  · show dictLookup (addContents (addContents s.rules c [(x, 2)]) c [(x, 5)])
        (c, x) = some 5
    rw [h2, h5, dictLookup_dictInsert_self]

/-- C7: an entry with multiplicity `0` in the contents mapping creates no
edge: `addRule(c, {x:0})` leaves the rule dictionary unchanged, and when no
stored rule references `c` or `x`, the pair `(c, x)` is absent from the rule
set, `canTransitivelyContain(c, x)` answers `false`, and neither `c` nor `x`
appears in `allNodes()`. -/
theorem day7_c7 (s : BagRuleset) (c x : Colour)
    (hc : ∀ r ∈ s.rules, r.1.1 ≠ c ∧ r.1.2 ≠ c)
    (hx : ∀ r ∈ s.rules, r.1.1 ≠ x ∧ r.1.2 ≠ x) :
    (s.add_rule c [(x, 0)]).rules = s.rules ∧
    dictLookup (s.add_rule c [(x, 0)]).rules (c, x) = none ∧
    c ∉ allColours (s.add_rule c [(x, 0)]).rules ∧
    x ∉ allColours (s.add_rule c [(x, 0)]).rules ∧
    (∀ (fuel : Nat) (b : Bool) (s' : BagRuleset),
      (s.add_rule c [(x, 0)]).can_transitively_contain fuel c x =
        some (b, s') → b = false) := by
  have hrules : (s.add_rule c [(x, 0)]).rules = s.rules := by
    show addContents s.rules c [(x, 0)] = s.rules
    exact addContents_single_nonpos le_rfl
  refine ⟨hrules, ?_, ?_, ?_, ?_⟩
  · rw [hrules]
    apply dictLookup_eq_none_of_keys
    intro kv hkv he
    exact (hc kv hkv).1 (congrArg Prod.fst he)
  · rw [hrules]
    intro hmem
    obtain ⟨r, hr, h1 | h1⟩ := mem_allColours.1 hmem
    · exact (hc r hr).1 h1.symm
    · exact (hc r hr).2 h1.symm
  · rw [hrules]
    intro hmem
    obtain ⟨r, hr, h1 | h1⟩ := mem_allColours.1 hmem
    · exact (hx r hr).1 h1.symm
    · exact (hx r hr).2 h1.symm
  · intro fuel b s' h
    obtain ⟨m, hg, hb⟩ := can_spec h
    obtain ⟨_, _, hsrc⟩ := get_cache_spec hg
    have hcomp : compileCache fuel (s.add_rule c [(x, 0)]).rules = some m := by
      rcases hsrc with h1 | h1
      · simp [BagRuleset.add_rule] at h1
      · exact h1
    rw [hrules] at hcomp
    have hkeys : ∀ kv ∈ m, kv.1.1 ≠ c :=
      compileCache_origin_closed (fun rr hrr => (hc rr hrr).1) hcomp
    have hnone : dictLookup m (c, x) = none :=
      dictLookup_eq_none_of_keys
        (fun kv hkv he => hkeys kv hkv (congrArg Prod.fst he))
    rw [hb]
    simp [dictContains, hnone]

/-- C7 witness at a concrete state with one unrelated rule. -/
theorem day7_c7_witness :
    ((BagRuleset.empty.add_rule "A" [("B", 2)]).add_rule "Z"
        [("W", 0)]).rules =
      (BagRuleset.empty.add_rule "A" [("B", 2)]).rules ∧
    dictLookup ((BagRuleset.empty.add_rule "A" [("B", 2)]).add_rule "Z"
        [("W", 0)]).rules ("Z", "W") = none ∧
    "Z" ∉ allColours ((BagRuleset.empty.add_rule "A" [("B", 2)]).add_rule "Z"
        [("W", 0)]).rules ∧
    (∃ p, ((BagRuleset.empty.add_rule "A" [("B", 2)]).add_rule "Z"
        [("W", 0)]).can_transitively_contain 5 "Z" "W" = some p ∧
      p.1 = false) := by
  have h := day7_c7 (BagRuleset.empty.add_rule "A" [("B", 2)]) "Z" "W"
    (by decide) (by decide)
  refine ⟨h.1, h.2.1, h.2.2.1, ?_⟩
  obtain ⟨p, hp⟩ : ∃ p, ((BagRuleset.empty.add_rule "A" [("B", 2)]).add_rule
      "Z" [("W", 0)]).can_transitively_contain 5 "Z" "W" = some p := ⟨_, rfl⟩
  refine ⟨p, hp, h.2.2.2.2 5 p.1 p.2 ?_⟩
  rw [hp]

/-- C8 counterexample: with the single rule `A -> {B:1}`, the node `B`
appears as an endpoint of a stored edge yet gets no seed entry in the initial
worklist — the code seeds only per *container* node, not per node appearing
as either endpoint. -/
theorem day7_c8_counterexample :
    "B" ∈ allColours (BagRuleset.empty.add_rule "A" [("B", 1)]).rules ∧
    ("B", "B", (1 : Int)) ∉
      initialWorklist (BagRuleset.empty.add_rule "A" [("B", 1)]).rules := by
  decide

/-- C8 (amended): closure construction initialises its worklist with exactly
one seed entry `(x, x, 1)` per node `x` that appears as the *container*
(first endpoint) of at least one stored edge — not per node appearing as
either endpoint — and on a ranked-acyclic positive rule set no seed entry is
ever recorded in the output map: no key `(x, x)` appears in a successfully
compiled cache. -/
theorem day7_c8 (rules : List ((Colour × Colour) × Int))
    (rank : Colour → Nat) (hrank : RankedAcyclic rules rank)
    (hpos : PositiveRules rules) :
    (∀ x : Colour,
      (x, x, (1 : Int)) ∈ initialWorklist rules ↔ x ∈ containersOf rules) ∧
    (containersOf rules).Nodup ∧
    (∀ (fuel : Nat) (r : List ((Colour × Colour) × Int)),
      compileCache fuel rules = some r →
      ∀ x : Colour, dictLookup r (x, x) = none) := by
  refine ⟨?_, nodup_containersOf rules, ?_⟩
  · intro x
    unfold initialWorklist
    rw [List.mem_reverse, List.mem_map]
    constructor
    · rintro ⟨y, hy, he⟩
      have : y = x := congrArg (fun e : Colour × Colour × Int => e.1) he
      exact this ▸ hy
    · intro hx
      exact ⟨x, hx, rfl⟩
  · intro fuel r hr x
    cases hl : dictLookup r (x, x) with
    | none => rfl
    | some v =>
        exfalso
        have hv : 0 < v :=
          compileCache_valsPos hpos hr ((x, x), v) (dictLookup_mem hl)
        have hD : dictLookupD r (x, x) 0 = v := by
          simp [dictLookupD, hl]
        have hlook := compileCache_lookup hrank hr x x
        rw [hD] at hlook
        have hgt : 0 < pathSumN (routesFrom rules) (rank x) x x :=
          hlook ▸ hv
        obtain ⟨p, hp, hd⟩ :=
          (pathSumN_pos_iff (routesFrom_pos hpos) _ x x).1 hgt
        exact not_reaches_self (adjRanked_of_rankedAcyclic hrank) x
          (reaches_of_path hp hd)

/-- C8 witness at the concrete acyclic rule set `A -> {B:2}, B -> {C:3}`. -/
theorem day7_c8_witness :
    (("A", "A", (1 : Int)) ∈
        initialWorklist [(("A", "B"), (2 : Int)), (("B", "C"), (3 : Int))] ↔
      "A" ∈ containersOf
        [(("A", "B"), (2 : Int)), (("B", "C"), (3 : Int))]) ∧
    (containersOf
        [(("A", "B"), (2 : Int)), (("B", "C"), (3 : Int))]).Nodup ∧
    (∃ r, compileCache 10
        [(("A", "B"), (2 : Int)), (("B", "C"), (3 : Int))] = some r ∧
      dictLookup r ("A", "A") = none) := by
  have h := day7_c8 [(("A", "B"), (2 : Int)), (("B", "C"), (3 : Int))]
    (fun c => if c = "A" then 2 else if c = "B" then 1 else 0)
    (by unfold RankedAcyclic; decide) (by unfold PositiveRules; decide)
  exact ⟨h.1 "A", h.2.1, ⟨_, rfl, h.2.2 10 _ rfl "A"⟩⟩

/-- C9: `allNodes()` enumerates exactly the endpoints of stored edges, each
exactly once, in first-seen order (for each stored edge in insertion order,
the container before the contained), and calling it returns the state
unchanged — it neither rebuilds the cache nor modifies the rule set. -/
theorem day7_c9 (s : BagRuleset) :
    s.all_colours.2 = s ∧
    s.all_colours.2.transitive_paths = s.transitive_paths ∧
    (∀ x : Colour,
      x ∈ s.all_colours.1 ↔ ∃ r ∈ s.rules, x = r.1.1 ∨ x = r.1.2) ∧
    s.all_colours.1.Nodup ∧
    s.all_colours.1 = firstSeen (endpointStream s.rules) :=
  ⟨rfl, rfl, fun _ => mem_allColours, nodup_allColours _,
    allColours_eq_firstSeen _⟩

/-- C3: the transitive-closure cache, whenever non-null on a reachable state,
is exactly what a from-scratch recomputation over the current rule set
produces; every `addRule` call sets the cache to null; and a query performed
right after an `addRule` computes its cache from the *new* rule set. -/
theorem day7_c3 (s : BagRuleset) (hs : ReachableState s) :
    (∀ (c : Colour) (m : List (Colour × Int)),
      (s.add_rule c m).transitive_paths = none) ∧
    (∀ m, s.transitive_paths = some m →
      ∀ (f : Nat) (r : List ((Colour × Colour) × Int)),
        compileCache f s.rules = some r → r = m) ∧
    (∀ (c : Colour) (mm : List (Colour × Int)) (fuel : Nat)
        (m : List ((Colour × Colour) × Int)) (s' : BagRuleset),
      (s.add_rule c mm).get_transitive_path_cache fuel = some (m, s') →
      compileCache fuel (s.add_rule c mm).rules = some m) := by
  refine ⟨fun c m => rfl, reachable_cacheConsistent hs, ?_⟩
  intro c mm fuel m s' h
  obtain ⟨_, _, hsrc⟩ := get_cache_spec h
  rcases hsrc with h1 | h1
  · simp [BagRuleset.add_rule] at h1
  · exact h1

/-- C3 witness on a concrete reachable state whose cache was populated by a
query. -/
theorem day7_c3_witness :
    ((BagRuleset.mk [(("A", "B"), (2 : Int))]
        (some [(("A", "B"), (2 : Int))])).add_rule "C"
        [("D", 1)]).transitive_paths = none ∧
    ([(("A", "B"), (2 : Int))] : List ((Colour × Colour) × Int)) =
      [(("A", "B"), (2 : Int))] ∧
    (∃ m s', ((BagRuleset.mk [(("A", "B"), (2 : Int))]
        (some [(("A", "B"), (2 : Int))])).add_rule "C"
          [("D", 1)]).get_transitive_path_cache 9 = some (m, s') ∧
      compileCache 9 ((BagRuleset.mk [(("A", "B"), (2 : Int))]
        (some [(("A", "B"), (2 : Int))])).add_rule "C"
          [("D", 1)]).rules = some m) := by
  have hq : (BagRuleset.empty.add_rule "A"
        [("B", 2)]).get_transitive_path_cache 10 =
      some ([(("A", "B"), (2 : Int))],
        BagRuleset.mk [(("A", "B"), (2 : Int))]
          (some [(("A", "B"), (2 : Int))])) := rfl
  have hreach : ReachableState (BagRuleset.mk [(("A", "B"), (2 : Int))]
      (some [(("A", "B"), (2 : Int))])) :=
    ReachableState.query_cache (ReachableState.add ReachableState.init) hq
  have h := day7_c3 _ hreach
  refine ⟨h.1 "C" [("D", 1)], h.2.1 [(("A", "B"), (2 : Int))] rfl 9 _ rfl, ?_⟩
  exact ⟨_, _, rfl, h.2.2 "C" [("D", 1)] 9 _ _ rfl⟩

/-- C10 (implicit invariant): every multiplicity stored in a reachable rule
set is strictly positive; a non-positive (zero or negative) multiplicity
passed to `addRule` is silently dropped — the resulting state equals the one
from the corresponding zero entry, with the rule dictionary unchanged — and
every value in a successfully compiled closure cache is strictly positive. -/
theorem day7_c10 (s : BagRuleset) (hs : ReachableState s) (c x : Colour)
    (w : Int) (hw : w ≤ 0) (rules : List ((Colour × Colour) × Int))
    (fuel : Nat) (r : List ((Colour × Colour) × Int))
    (hpos : PositiveRules rules) (hr : compileCache fuel rules = some r) :
    PositiveRules s.rules ∧
    s.add_rule c [(x, w)] = BagRuleset.mk s.rules none ∧
    s.add_rule c [(x, w)] = s.add_rule c [(x, 0)] ∧
    (∀ kv ∈ r, 0 < kv.2) := by
  have hnp : (s.add_rule c [(x, w)]) = BagRuleset.mk s.rules none := by
    show BagRuleset.mk (addContents s.rules c [(x, w)]) none =
      BagRuleset.mk s.rules none
    rw [addContents_single_nonpos hw]
  refine ⟨reachable_positiveRules hs, hnp, ?_, compileCache_valsPos hpos hr⟩
  rw [hnp]
  show BagRuleset.mk s.rules none =
    BagRuleset.mk (addContents s.rules c [(x, 0)]) none
  rw [addContents_single_nonpos le_rfl]

/-- C10 witness on a concrete reachable two-rule state, a negative
multiplicity, and a concrete compiled cache. -/
theorem day7_c10_witness :
    PositiveRules ((BagRuleset.empty.add_rule "A" [("B", 2)]).add_rule "B"
      [("C", 3)]).rules ∧
    ((BagRuleset.empty.add_rule "A" [("B", 2)]).add_rule "B"
        [("C", 3)]).add_rule "Q" [("R", -3)] =
      BagRuleset.mk ((BagRuleset.empty.add_rule "A" [("B", 2)]).add_rule "B"
        [("C", 3)]).rules none ∧
    (∃ r, compileCache 10
        [(("A", "B"), (2 : Int)), (("B", "C"), (3 : Int))] = some r ∧
      ∀ kv ∈ r, 0 < kv.2) := by
  have h := day7_c10
    ((BagRuleset.empty.add_rule "A" [("B", 2)]).add_rule "B" [("C", 3)])
    (ReachableState.add (ReachableState.add ReachableState.init))
    "Q" "R" (-3) (by norm_num)
    [(("A", "B"), (2 : Int)), (("B", "C"), (3 : Int))] 10 _
    (by unfold PositiveRules; decide) rfl
  exact ⟨h.1, h.2.1, ⟨_, rfl, h.2.2.2⟩⟩

/-- C1: on a ranked-acyclic positive rule set, `totalContainedTransitively(c)`
equals the sum, over every node `n` and every directed path of length `≥ 1`
from `c` to `n`, of the product of the edge multiplicities along the path
(`pathSumN` at any horizon `≥ rank c`); the path sum vanishes at nodes not
mentioned by any rule, so the sum over `allColours` is the sum over the
reachable nodes; a node with no outgoing edge totals `0`; concretely
`A -> {B:2}, B -> {C:3}` totals `8` from `A` and `0` from `C`, and
`A -> {B:1, C:1}, B -> {D:2}, C -> {D:3}` totals `7` from `A`. -/
theorem day7_c1 (rules : List ((Colour × Colour) × Int))
    (rank : Colour → Nat) (hrank : RankedAcyclic rules rank) :
    (∀ (c : Colour) (fuel : Nat) (t : Int) (s' : BagRuleset),
      BagRuleset.total_contained_transitively fuel
          (BagRuleset.mk rules none) c = some (t, s') →
      (∀ fuel2 : Nat, rank c ≤ fuel2 →
        t = ((allColours rules).map
          (fun n => pathSumN (routesFrom rules) fuel2 c n)).sum) ∧
      (routesFrom rules c = [] → t = 0)) ∧
    (∀ n : Colour, n ∉ allColours rules →
      ∀ (f : Nat) (c : Colour), pathSumN (routesFrom rules) f c n = 0) ∧
    (∃ p, BagRuleset.total_contained_transitively 20
        (BagRuleset.mk [(("A", "B"), (2 : Int)), (("B", "C"), (3 : Int))]
          none) "A" = some p ∧ p.1 = 8) ∧
    (∃ p, BagRuleset.total_contained_transitively 20
        (BagRuleset.mk [(("A", "B"), (2 : Int)), (("B", "C"), (3 : Int))]
          none) "C" = some p ∧ p.1 = 0) ∧
    (∃ p, BagRuleset.total_contained_transitively 20
        (BagRuleset.mk [(("A", "B"), (1 : Int)), (("A", "C"), (1 : Int)),
          (("B", "D"), (2 : Int)), (("C", "D"), (3 : Int))] none)
        "A" = some p ∧ p.1 = 7) := by
  refine ⟨?_, fun n hn f c => pathSumN_not_endpoint hn f c, ⟨_, rfl, rfl⟩,
    ⟨_, rfl, rfl⟩, ⟨_, rfl, rfl⟩⟩
  intro c fuel t s' h
  obtain ⟨m, hg, ht⟩ := total_spec h
  obtain ⟨hrules, _, hsrc⟩ := get_cache_spec hg
  have hcomp : compileCache fuel rules = some m := by
    rcases hsrc with h1 | h1
    · simp at h1
    · exact h1
  have hA := adjRanked_of_rankedAcyclic hrank
  constructor
  · intro fuel2 hf2
    rw [ht, hrules]
    apply congrArg List.sum
    apply List.map_congr_left
    intro n _
    rw [compileCache_lookup hrank hcomp c n]
    exact pathSumN_stable hA n (rank c) c le_rfl (rank c) fuel2 le_rfl hf2
  · intro hadj
    rw [ht]
    apply sum_map_eq_zero
    intro n _
    rw [compileCache_lookup hrank hcomp c n, pathSumN_empty_adj hadj]

/-- C1 witness on the concrete rule set `A -> {B:2}, B -> {C:3}`. -/
theorem day7_c1_witness :
    ∃ p, BagRuleset.total_contained_transitively 20
        (BagRuleset.mk [(("A", "B"), (2 : Int)), (("B", "C"), (3 : Int))]
          none) "A" = some p ∧
      p.1 = ((allColours
          [(("A", "B"), (2 : Int)), (("B", "C"), (3 : Int))]).map
        (fun n => pathSumN
          (routesFrom [(("A", "B"), (2 : Int)), (("B", "C"), (3 : Int))]) 2
          "A" n)).sum := by
  have h := day7_c1 [(("A", "B"), (2 : Int)), (("B", "C"), (3 : Int))]
    (fun c => if c = "A" then 2 else if c = "B" then 1 else 0)
    (by unfold RankedAcyclic; decide)
  obtain ⟨p, hp⟩ : ∃ p, BagRuleset.total_contained_transitively 20
      (BagRuleset.mk [(("A", "B"), (2 : Int)), (("B", "C"), (3 : Int))]
        none) "A" = some p := ⟨_, rfl⟩
  refine ⟨p, hp, (h.1 "A" 20 p.1 p.2 ?_).1 2 (by decide)⟩
  rw [hp]

/-- C2: on a ranked-acyclic positive rule set,
`canTransitivelyContain(container, contained)` answers `true` iff a directed
path of edges of length `≥ 1` leads from `container` to `contained`
(`Reaches`, equivalently an explicit path list), and in particular
`canTransitivelyContain(x, x)` is `false` for every `x`, since a ranked
acyclic rule set has no cycle through `x`. -/
theorem day7_c2 (rules : List ((Colour × Colour) × Int))
    (rank : Colour → Nat) (hrank : RankedAcyclic rules rank)
    (hpos : PositiveRules rules) :
    ∀ (c d : Colour) (fuel : Nat) (b : Bool) (s' : BagRuleset),
      BagRuleset.can_transitively_contain fuel (BagRuleset.mk rules none)
        c d = some (b, s') →
      (b = true ↔ Reaches (routesFrom rules) c d) ∧
      (Reaches (routesFrom rules) c d ↔
        ∃ (f : Nat) (p : List (Colour × Int)),
          p ∈ pathsFrom (routesFrom rules) f c ∧ pathDest p = some d) ∧
      (c = d → b = false) := by
  intro c d fuel b s' h
  obtain ⟨m, hg, hb⟩ := can_spec h
  obtain ⟨_, _, hsrc⟩ := get_cache_spec hg
  have hcomp : compileCache fuel rules = some m := by
    rcases hsrc with h1 | h1
    · simp at h1
    · exact h1
  have hmem := compileCache_mem_iff hrank hpos hcomp c d
  subst hb
  refine ⟨hmem, ?_, ?_⟩
  · constructor
    · intro hr
      obtain ⟨f, p, hp, hd⟩ := path_of_reaches hr
      exact ⟨f, p, hp, hd⟩
    · rintro ⟨f, p, hp, hd⟩
      exact reaches_of_path hp hd
  · intro hcd
    subst hcd
    cases hval : dictContains m (c, c) with
    | false => rfl
    | true =>
        exfalso
        exact not_reaches_self (adjRanked_of_rankedAcyclic hrank) c
          (hmem.1 hval)

/-- C2 witness: on `A -> {B:2}, B -> {C:3}` the query `(A, C)` answers
`true`, matching the explicit two-edge path. -/
theorem day7_c2_witness :
    ∃ p, BagRuleset.can_transitively_contain 20
        (BagRuleset.mk [(("A", "B"), (2 : Int)), (("B", "C"), (3 : Int))]
          none) "A" "C" = some p ∧
      (p.1 = true ↔
        Reaches (routesFrom
          [(("A", "B"), (2 : Int)), (("B", "C"), (3 : Int))]) "A" "C") ∧
      p.1 = true := by
  have h := day7_c2 [(("A", "B"), (2 : Int)), (("B", "C"), (3 : Int))]
    (fun c => if c = "A" then 2 else if c = "B" then 1 else 0)
    (by unfold RankedAcyclic; decide) (by unfold PositiveRules; decide)
  obtain ⟨p, hp⟩ : ∃ p, BagRuleset.can_transitively_contain 20
      (BagRuleset.mk [(("A", "B"), (2 : Int)), (("B", "C"), (3 : Int))]
        none) "A" "C" = some p := ⟨_, rfl⟩
  have hiff := (h "A" "C" 20 p.1 p.2 (by rw [hp])).1
  have hreach : Reaches (routesFrom
      [(("A", "B"), (2 : Int)), (("B", "C"), (3 : Int))]) "A" "C" :=
    Reaches.cons (s := "B") (w := 2) (by decide)
      (Reaches.edge (w := 3) (by decide))
  exact ⟨p, hp, hiff, hiff.2 hreach⟩

/-- C4: the closure-construction worklist loop terminates for every
ranked-acyclic rule set (some fuel empties the worklist), and for every rule
set with a directed cycle — whose nodes all have outgoing edges and are hence
seeded — it does not terminate: no amount of fuel ever empties the
worklist. -/
theorem day7_c4 (rules : List ((Colour × Colour) × Int)) :
    (∀ rank : Colour → Nat, RankedAcyclic rules rank →
      ∃ (fuel : Nat) (r : List ((Colour × Colour) × Int)),
        compileCache fuel rules = some r) ∧
    (∀ z : Colour, Reaches (routesFrom rules) z z →
      ∀ fuel : Nat, compileCache fuel rules = none) :=
  ⟨fun _ hrank => compileCache_terminates hrank,
    fun _ hz fuel => compileCache_cyclic hz fuel⟩

/-- C4 witness: the acyclic singleton `A -> {B:1}` compiles, while the
self-loop `A -> {A:1}` returns no result at fuel `50` (nor any other). -/
theorem day7_c4_witness :
    (∃ (fuel : Nat) (r : List ((Colour × Colour) × Int)),
      compileCache fuel [(("A", "B"), (1 : Int))] = some r) ∧
    compileCache 50 [(("A", "A"), (1 : Int))] = none := by
  constructor
  · exact (day7_c4 [(("A", "B"), (1 : Int))]).1
      (fun c => if c = "A" then 1 else 0) (by unfold RankedAcyclic; decide)
  · exact (day7_c4 [(("A", "A"), (1 : Int))]).2 "A"
      (Reaches.edge (w := 1) (by decide)) 50

/-- C5: on a ranked-acyclic positive rule set the final closure map does not
depend on the worklist pop order: the FIFO strategy also terminates, and any
successful LIFO run and any successful FIFO run agree on every looked-up
value and on every key membership. -/
theorem day7_c5 (rules : List ((Colour × Colour) × Int))
    (rank : Colour → Nat) (hrank : RankedAcyclic rules rank)
    (hpos : PositiveRules rules) :
    (∃ (f : Nat) (r : List ((Colour × Colour) × Int)),
      compileCacheFIFO f rules = some r) ∧
    (∀ (f1 f2 : Nat) (r1 r2 : List ((Colour × Colour) × Int)),
      compileCache f1 rules = some r1 → compileCacheFIFO f2 rules = some r2 →
      (∀ o d : Colour, dictLookupD r1 (o, d) 0 = dictLookupD r2 (o, d) 0) ∧
      (∀ k : Colour × Colour, dictContains r1 k = dictContains r2 k)) := by
  refine ⟨compileCacheFIFO_terminates hrank, ?_⟩
  intro f1 f2 r1 r2 h1 h2
  have hlook : ∀ o d : Colour,
      dictLookupD r1 (o, d) 0 = dictLookupD r2 (o, d) 0 := by
    intro o d
    rw [compileCache_lookup hrank h1 o d,
      compileCacheFIFO_lookup hrank h2 o d]
  refine ⟨hlook, ?_⟩
  intro k
  obtain ⟨o, d⟩ := k
  have hc1 := dictContains_iff_pos (compileCache_valsPos hpos h1) (o, d)
  have hc2 := dictContains_iff_pos (compileCacheFIFO_valsPos hpos h2) (o, d)
  rw [hlook o d] at hc1
  cases hb1 : dictContains r1 (o, d) with
  | true => exact (hc2.2 (hc1.1 hb1)).symm
  | false =>
      cases hb2 : dictContains r2 (o, d) with
      | false => rfl
      | true =>
          exfalso
          have hr1 := hc1.2 (hc2.1 hb2)
          rw [hb1] at hr1
          exact Bool.false_ne_true hr1

/-- C5 witness on the diamond `A -> {B:1, C:1}, B -> {D:2}, C -> {D:3}`. -/
theorem day7_c5_witness :
    ∃ r1 r2,
      compileCache 50 [(("A", "B"), (1 : Int)), (("A", "C"), (1 : Int)),
        (("B", "D"), (2 : Int)), (("C", "D"), (3 : Int))] = some r1 ∧
      compileCacheFIFO 50 [(("A", "B"), (1 : Int)), (("A", "C"), (1 : Int)),
        (("B", "D"), (2 : Int)), (("C", "D"), (3 : Int))] = some r2 ∧
      dictLookupD r1 ("A", "D") 0 = dictLookupD r2 ("A", "D") 0 ∧
      dictContains r1 ("A", "D") = dictContains r2 ("A", "D") := by
  have h := day7_c5 [(("A", "B"), (1 : Int)), (("A", "C"), (1 : Int)),
      (("B", "D"), (2 : Int)), (("C", "D"), (3 : Int))]
    (fun c => if c = "A" then 2 else if c = "D" then 0 else 1)
    (by unfold RankedAcyclic; decide) (by unfold PositiveRules; decide)
  refine ⟨_, _, rfl, rfl, ?_, ?_⟩
  · exact (h.2 50 50 _ _ rfl rfl).1 "A" "D"
  · exact (h.2 50 50 _ _ rfl rfl).2 ("A", "D")

end Day7
